import Mathlib
/-!
# Verification of the `acc` Merkle-tree accumulator

A shallow embedding of `accumulator/merkle.py` (pointer Merkle tree,
direction/proof protocol) together with the spec-described historical
accumulator layer, and proofs/refutations of the frozen claims about them.

Byte strings are modelled as `List Nat` (one entry per byte); the hash
oracle `H` is an explicit parameter of every operation (in the source it
is the global `H` imported from `common.py`).  `common.py` itself is not
part of the available sources, so its five small helpers (`H`, `NIL`,
`is_power_of_2`, `floor_lg`, `ceil_lg`, `largest_power_of_2_less_than`)
are modelled from the spec, as documented on each definition.
-/

/-- Byte strings: the domain and codomain of the hash oracle. -/
abbrev BS := List Nat

/-- Modelled from the spec: `NIL` is "a distinguished digest" representing
"no commitment" (the root of zero elements); its concrete value is
irrelevant to every claim, so we pick the empty byte string. -/

def NIL : BS := []

/-- Fuel-driven binary logarithm (floor).  Structurally recursive so that
the kernel can evaluate it; `floor_lg` below instantiates the fuel. -/

def floor_lg_fuel : Nat → Nat → Nat
  | 0, _ => 0
  | f + 1, n => if n ≤ 1 then 0 else floor_lg_fuel f (n / 2) + 1

/-- Modelled from the spec: `floor_lg n` is the floor of log2 of `n`
(imported by `merkle.py` from the missing `common.py`). -/

def floor_lg (n : Nat) : Nat := floor_lg_fuel n n

/-- Modelled from the spec: `ceil_lg n` is the ceiling of log2 of `n`
(imported by `merkle.py` from the missing `common.py`). -/

def ceil_lg (n : Nat) : Nat := if n ≤ 1 then 0 else floor_lg (n - 1) + 1

/-- `n` is a (positive) power of two.  Helper for `is_power_of_2`. -/

def isPow2Nat (n : Nat) : Bool := n == 2 ^ floor_lg n

/-- Modelled from the spec (§4.1): the largest power of two strictly less
than `n`, meaningful for `n ≥ 2` (imported by `merkle.py` from the
missing `common.py`). -/

def largest_power_of_2_less_than (n : Nat) : Nat := 2 ^ (ceil_lg n - 1)

/-- Exact dyadic rationals `num / 2 ^ exp`.  `MerkleTree.add` tracks the
"left subtree size" with Python's true division `ltree_size /= 2`, which
produces floats; on the values arising there (powers of two and their
differences) binary floating point is exact, and this type models that
arithmetic exactly. -/

structure Dy where
  num : Int
  exp : Nat
deriving DecidableEq

/-- Dyadic subtraction (cross-multiplied; no normalisation needed). -/

def Dy.sub (a b : Dy) : Dy := ⟨a.num * 2 ^ b.exp - b.num * 2 ^ a.exp, a.exp + b.exp⟩

/-- Dyadic halving: models Python's `x /= 2`. -/

def Dy.half (a : Dy) : Dy := ⟨a.num, a.exp + 1⟩

/-- Embed a natural number as a dyadic value. -/

def Dy.ofNat (n : Nat) : Dy := ⟨n, 0⟩

/-- Modelled from the spec: `is_power_of_2` from the missing `common.py`,
lifted to the dyadic values that `MerkleTree.add` feeds it.  A dyadic
`num / 2 ^ exp` is a positive power of two exactly when `num` is. -/

def is_power_of_2 (s : Dy) : Bool := isPow2Nat s.num.toNat

/-- `d.Rep z`: the dyadic `d` represents the integer `z`. -/

def Dy.Rep (d : Dy) (z : Int) : Prop := d.num = z * 2 ^ d.exp

inductive Node where
  | leaf (value : BS)
  | node (left right : Node) (value : BS)
deriving DecidableEq

/-- The `value` field of a node. -/

def Node.value : Node → BS
  | .leaf v => v
  | .node _ _ v => v

def Node.leavesList : Node → List BS
  | .leaf v => [v]
  | .node l r _ => l.leavesList ++ r.leavesList

/-- Number of leaves of the subtree. -/

def Node.size : Node → Nat
  | .leaf _ => 1
  | .node l r _ => l.size + r.size

/-- Fuel-driven version of `make_tree` (structurally recursive so the
kernel can evaluate it); the fuel only needs to dominate the list length. -/

def make_tree_fuel (H : BS → BS) : Nat → List BS → Node
  | 0, l => Node.leaf (l.headD NIL)
  | f + 1, l =>
    if l.length ≤ 1 then Node.leaf (l.headD NIL)
    else
      let lchild_size := largest_power_of_2_less_than l.length
      let lchild := make_tree_fuel H f (l.take lchild_size)
      let rchild := make_tree_fuel H f (l.drop lchild_size)
      Node.node lchild rchild (H (lchild.value ++ rchild.value))

/-- `make_tree` of `merkle.py` (lines 30-46): builds the left-complete
Merkle tree over a non-empty slice of leaves.  The Python `(leaves,
begin, size)` slice arguments are here the list itself; `recompute_value`
on the fresh root is the `H (left.value ++ right.value)` field. -/

def make_tree (H : BS → BS) (l : List BS) : Node := make_tree_fuel H l.length l

-- ## The direction / proof protocol (merkle.py lines 162-210)

/-- Fuel-driven version of the `get_directions` loop. -/

def get_directions_fuel : Nat → Nat → Nat → List Bool
  | 0, _, _ => []
  | f + 1, size, index =>
    if size ≤ 1 then []
    else
      let depth := ceil_lg size
      let mask := 2 ^ (depth - 1)
      if index &&& mask != 0 then
        true :: get_directions_fuel f (size - mask) (index - mask)
      else
        false :: get_directions_fuel f mask index

/-- `get_directions` of `merkle.py` (lines 162-188): the root-to-leaf
left/right choices (`true` = right) for the leaf `index` in a tree of
`size` leaves.  The Python function asserts `size > 0` and
`0 <= index < size`; all theorems below stay inside that domain (the
loop itself, modelled here, is total). -/

def get_directions (size index : Nat) : List Bool :=
  get_directions_fuel size size index

/-- `get_proof_size` of `merkle.py` (lines 191-192). -/

def get_proof_size (size index : Nat) : Nat := (get_directions size index).length

/-- The proof-folding loop of `merkle_proof_verify` (lines 204-208).
The second list is the direction sequence *already reversed* (the Python
code pops from the end of `directions`); `false` hashes the running
digest on the left, `true` on the right. -/

def verify_fold (H : BS → BS) : BS → List BS → List Bool → BS
  | cur, [], _ => cur
  | cur, _ :: _, [] => cur
  | cur, h :: proof, d :: ds =>
    verify_fold H (if d then H (h ++ cur) else H (cur ++ h)) proof ds

/-- `merkle_proof_verify` of `merkle.py` (lines 195-210).  `none` models
the `AssertionError` raised by `get_directions` outside its domain;
inside the domain the function always returns a boolean (`some`). -/

def merkle_proof_verify (H : BS → BS) (root : BS) (size : Nat) (element : BS)
    (index : Nat) (proof : List BS) : Option Bool :=
  if 1 ≤ size ∧ index < size then
    let directions := get_directions size index
    if proof.length ≠ directions.length then some false
    else some (verify_fold H element proof directions.reverse == root)
  else none

-- ## The MerkleTree class (merkle.py lines 49-159)

/-- Python list indexing discipline: a negative index `i` means
`len + i`; the result is `none` (an `IndexError`) when the resolved
position is outside `[0, len)`. -/

def pyIndex (len : Nat) (i : Int) : Option Nat :=
  let j := if i < 0 then (len : Int) + i else i
  if 0 ≤ j ∧ j < (len : Int) then some j.toNat else none

/-- The sibling-collecting walk of `prove_leaf` (lines 147-159), done by
structural descent: Python walks from `self.leaves[index]` up through
`parent`/`sibling` pointers, collecting the sibling digests leaf-to-root;
descending to the leaf and collecting the other child's digest on the way
back up yields the same list for a tree whose leaf order matches
`leavesList`. -/

def Node.proveLeaf : Node → Nat → List BS
  | .leaf _, _ => []
  | .node l r _, i =>
    if i < l.size then l.proveLeaf i ++ [r.value]
    else r.proveLeaf (i - l.size) ++ [l.value]

/-- The mutation of `set` on an in-range index (lines 134-136): overwrite
`self.leaves[index].value` and let `fix_up` recompute every ancestor's
digest.  Structurally: rebuild the path from that leaf to the root,
recomputing each value from the (one changed, one unchanged) children. -/

def Node.setLeaf (H : BS → BS) : Node → Nat → BS → Node
  | .leaf _, _, x => .leaf x
  | .node l r _, i, x =>
    if i < l.size then
      let l2 := l.setLeaf H i x
      .node l2 r (H (l2.value ++ r.value))
    else
      let r2 := r.setLeaf H (i - l.size) x
      .node l r2 (H (l.value ++ r2.value))

/-- The descent loop of `add` (lines 102-121) followed by the splice and
`fix_up`.  `s` is `cur_root_size` and `lt` is `ltree_size`, tracked with
the exact dyadic arithmetic that mirrors Python's ints/floats.  While the
current subtree size is not a power of two the code moves to the right
child; Python would dereference the missing right child of a leaf (and
crash), modelled by `none`.  On the splice, `fix_up` recomputes the new
node's digest and every ancestor's on the way back up, which is the
rebuilt `H (… ++ …)` values here. -/

def add_down (H : BS → BS) (x : BS) (t : Node) (s lt : Dy) : Option Node :=
  if is_power_of_2 s then
    some (.node t (.leaf x) (H (t.value ++ x)))
  else
    match t with
    | .leaf _ => none
    | .node l r _ =>
      (add_down H x r (s.sub lt) lt.half).map fun r2 =>
        Node.node l r2 (H (l.value ++ r2.value))

/-- The `MerkleTree` state: `root_node` and `depth` as in the Python
class (`None` when the tree is empty).  The `leaves` list is derived
(`leavesVals`): Python keeps the same `Node` objects in the list and in
the tree, so the list always equals the in-order leaf values. -/

structure MerkleTree where
  root_node : Option Node
  depth : Option Nat
deriving DecidableEq

/-- The values of `self.leaves`. -/

def MerkleTree.leavesVals (t : MerkleTree) : List BS :=
  match t.root_node with
  | none => []
  | some r => r.leavesList

/-- `len(self)` (lines 73-75). -/

def MerkleTree.size (t : MerkleTree) : Nat := t.leavesVals.length

/-- `MerkleTree.__init__` (lines 63-71). -/

def MerkleTree.ofElements (H : BS → BS) (elements : List BS) : MerkleTree :=
  if elements.isEmpty then ⟨none, none⟩
  else ⟨some (make_tree H elements), some (ceil_lg elements.length)⟩

/-- The `root` property (lines 77-80). -/

def MerkleTree.root (t : MerkleTree) : BS :=
  match t.root_node with
  | none => NIL
  | some r => r.value

/-- `copy` (lines 82-84): rebuild a fresh tree from the leaf values. -/

def MerkleTree.copy (H : BS → BS) (t : MerkleTree) : MerkleTree :=
  MerkleTree.ofElements H t.leavesVals

/-- `add` (lines 86-121).  After appending, Python takes
`cur_root_size = len(self.leaves) - 1` (the old size) and
`ltree_size = 0` if `depth == 0` else `2 ^ (depth - 1)`, then runs the
descent loop; the new root replaces the old one exactly when the old size
was a power of two (the loop stopped at the global root), in which case
`depth` increases by one.  `none` models the crash of the descent loop. -/

def MerkleTree.add (H : BS → BS) (t : MerkleTree) (x : BS) : Option MerkleTree :=
  match t.root_node with
  | none => some ⟨some (.leaf x), some 0⟩
  | some root =>
    let m := t.size
    let d := t.depth.getD 0
    let lt := if d = 0 then Dy.ofNat 0 else Dy.ofNat (2 ^ (d - 1))
    (add_down H x root (Dy.ofNat m) lt).map fun r2 =>
      ⟨some r2, some (if is_power_of_2 (Dy.ofNat m) then d + 1 else d)⟩

/-- `set` (lines 123-136).  The `assert 0 <= index <= len(self.leaves)`
is `none` outside that range (the tree is untouched there, as in Python:
the assertion fires before any mutation); `index == len` delegates to
`add`; otherwise the leaf is overwritten and `fix_up` recomputes the
ancestors. -/

def MerkleTree.set (H : BS → BS) (t : MerkleTree) (index : Int) (x : BS) :
    Option MerkleTree :=
  if 0 ≤ index ∧ index ≤ (t.size : Int) then
    if index = (t.size : Int) then t.add H x
    else t.root_node.map fun r => ⟨some (r.setLeaf H index.toNat x), t.depth⟩
  else none

/-- `get` (lines 143-145): `self.leaves[i].value`, with Python's
negative-index semantics; `none` is the `IndexError`. -/

def MerkleTree.get (t : MerkleTree) (i : Int) : Option BS :=
  (pyIndex t.size i).bind fun j => t.leavesVals.get? j

/-- `prove_leaf` (lines 147-159): `self.leaves[index]` (Python indexing,
hence `pyIndex`), then the sibling-collecting walk to the root. -/

def MerkleTree.prove_leaf (t : MerkleTree) (index : Int) : Option (List BS) :=
  (pyIndex t.size index).bind fun j =>
    match t.root_node with
    | none => none
    | some r => some (r.proveLeaf j)

-- ## List helpers

def addAll (H : BS → BS) (els : List BS) : Option MerkleTree :=
  els.foldlM (MerkleTree.add H) ⟨none, none⟩

/-- Modelled from the spec: the historical accumulator layer (§3, §4.4);
its source (`FastAccumulator`/`FastProver`) is not under `src/`.  It
wraps an underlying tree; `add` delegates to the tree's `add` and then
records `R[new_size] = tree.root()`; `R[0] = NIL`; `R` is append-only. -/

structure FastAccumulator where
  tree : MerkleTree
  R : List BS
deriving DecidableEq

/-- Modelled from the spec: a freshly created accumulator is empty and
holds only `R[0] = NIL`. -/

def FastAccumulator.init : FastAccumulator := ⟨⟨none, none⟩, [NIL]⟩

/-- Modelled from the spec (§4.4): `add(x)` delegates to the underlying
tree's `add`, then records the new root; `R` grows by exactly one entry
and earlier entries are never touched.  `none` propagates a failure of
the underlying tree's `add`. -/

def FastAccumulator.add (H : BS → BS) (a : FastAccumulator) (x : BS) :
    Option FastAccumulator :=
  (a.tree.add H x).map fun t2 => ⟨t2, a.R ++ [t2.root]⟩

/-- Run the accumulator over a whole element list. -/

def accFromList (H : BS → BS) (els : List BS) : Option FastAccumulator :=
  els.foldlM (FastAccumulator.add H) FastAccumulator.init

/-- An injective encoding of byte strings into `Nat`, used to build
concrete hash functions for witnesses. -/

def encBS : BS → Nat
  | [] => 0
  | a :: l => Nat.pair a (encBS l) + 1

/-- A concrete hash oracle that is injective and has digest length 1:
with bytes modelled as unbounded naturals such an oracle exists, which
lets the collision-freedom hypotheses of the soundness theorems be
discharged on concrete inputs. -/

def Hpair : BS → BS := fun l => [encBS l]

/-- A cheap injective sample hash for concrete evaluations. -/

def Hcons : BS → BS := fun l => 0 :: l

/-- Eleven concrete elements: the smallest tree size on which the
descent loop of `add` mistracks the subtree sizes. -/

def els11 : List BS := [[0],[1],[2],[3],[4],[5],[6],[7],[8],[9],[10]]

/-- Twelve concrete elements: the incremental build crashes on the 12th. -/

def els12 : List BS := els11 ++ [[11]]

-- ## Python indexing and the accessors on constructor-built trees

def accW3 : FastAccumulator :=
  ⟨⟨some (.node (.node (.leaf [1]) (.leaf [2]) [0,1,2]) (.leaf [3]) [0,0,1,2,3]), some 2⟩,
    [[], [1], [0,1,2], [0,0,1,2,3]]⟩

/-- Concrete accumulator state after a fourth append `[4]`. -/

def accW4 : FastAccumulator :=
  ⟨⟨some (.node (.node (.leaf [1]) (.leaf [2]) [0,1,2])
      (.node (.leaf [3]) (.leaf [4]) [0,3,4]) [0,0,1,2,0,3,4]), some 2⟩,
    [[], [1], [0,1,2], [0,0,1,2,3], [0,0,1,2,0,3,4]]⟩

/-- Witness for C8 on a concrete three-append run. -/

theorem Dy.rep_ofNat (n : Nat) : (Dy.ofNat n).Rep n := by
  simp [Dy.ofNat, Dy.Rep]

theorem Dy.rep_sub {a b : Dy} {za zb : Int} (ha : a.Rep za) (hb : b.Rep zb) :
    (a.sub b).Rep (za - zb) := by
  simp only [Dy.Rep, Dy.sub] at *
  rw [ha, hb]
  ring

theorem Dy.half_num (a : Dy) : a.half.num = a.num := rfl

-- ## Properties of the logarithm helpers

theorem floor_lg_fuel_adequate : ∀ f n, n ≤ f → floor_lg_fuel f n = Nat.log 2 n := by
  intro f
  induction f with
  | zero =>
    intro n hn
    interval_cases n
    simp [floor_lg_fuel]
  | succ f ih =>
    intro n hn
    rw [floor_lg_fuel]
    by_cases h1 : n ≤ 1
    · interval_cases n <;> simp
    · push_neg at h1
      rw [if_neg (by omega), ih (n / 2) (by omega)]
      have hpos : 0 < Nat.log 2 n := Nat.log_pos (by norm_num) (by omega)
      have hdiv := Nat.log_div_base 2 n
      omega

theorem floor_lg_eq_log (n : Nat) : floor_lg n = Nat.log 2 n :=
  floor_lg_fuel_adequate n n le_rfl

theorem ceil_lg_eq_clog (n : Nat) : ceil_lg n = Nat.clog 2 n := by
  unfold ceil_lg
  by_cases h1 : n ≤ 1
  · have h0 : Nat.clog 2 n ≤ 0 := by
      rw [← Nat.le_pow_iff_clog_le (by norm_num)]
      simpa using h1
    simp [h1, Nat.le_zero.mp h0]
  · push_neg at h1
    rw [if_neg (by omega), floor_lg_eq_log]
    have hne : n - 1 ≠ 0 := by omega
    have hub : n ≤ 2 ^ (Nat.log 2 (n - 1) + 1) := by
      have := Nat.lt_pow_succ_log_self (show (1:Nat) < 2 by norm_num) (n - 1)
      omega
    have hlb : 2 ^ Nat.log 2 (n - 1) < n := by
      have := Nat.pow_log_le_self 2 hne
      omega
    have h2 : Nat.clog 2 n ≤ Nat.log 2 (n - 1) + 1 :=
      (Nat.le_pow_iff_clog_le (by norm_num)).mp hub
    have h3 : Nat.log 2 (n - 1) < Nat.clog 2 n :=
      (Nat.pow_lt_iff_lt_clog (by norm_num)).mp hlb
    omega

theorem isPow2Nat_iff (n : Nat) : isPow2Nat n = true ↔ ∃ k, n = 2 ^ k := by
  unfold isPow2Nat
  rw [beq_iff_eq]
  constructor
  · intro h
    exact ⟨floor_lg n, h⟩
  · rintro ⟨k, rfl⟩
    rw [floor_lg_eq_log, Nat.log_pow (by norm_num)]

theorem isPow2Nat_scale (v e : Nat) : isPow2Nat (v * 2 ^ e) = isPow2Nat v := by
  rw [Bool.eq_iff_iff, isPow2Nat_iff, isPow2Nat_iff]
  constructor
  · rintro ⟨k, hk⟩
    rcases Nat.eq_zero_or_pos v with hv | hv
    · exfalso
      rw [hv, Nat.zero_mul] at hk
      exact (ne_of_gt (pow_pos (by norm_num) k)) hk.symm
    · have hek : e ≤ k := by
        by_contra hgt
        push_neg at hgt
        have h1 : 2 ^ e ≤ v * 2 ^ e := Nat.le_mul_of_pos_left _ hv
        have h2 : (2 : Nat) ^ k < 2 ^ e := Nat.pow_lt_pow_right (by norm_num) hgt
        omega
      refine ⟨k - e, ?_⟩
      have h2 : v * 2 ^ e = 2 ^ (k - e) * 2 ^ e := by
        rw [← Nat.pow_add]
        rw [hk]
        congr 1
        omega
      exact Nat.eq_of_mul_eq_mul_right (by positivity) h2
  · rintro ⟨j, rfl⟩
    exact ⟨j + e, by rw [Nat.pow_add]⟩

theorem is_power_of_2_rep {d : Dy} {v : Nat} (h : d.Rep v) :
    is_power_of_2 d = isPow2Nat v := by
  unfold is_power_of_2
  rw [Dy.Rep] at h
  have : d.num.toNat = v * 2 ^ d.exp := by
    rw [h]
    rw [show ((v : Int) * 2 ^ d.exp) = ((v * 2 ^ d.exp : Nat) : Int) by push_cast; ring]
    exact Int.toNat_natCast _
  rw [this, isPow2Nat_scale]

theorem is_power_of_2_neg {d : Dy} (h : d.num < 0) : is_power_of_2 d = false := by
  unfold is_power_of_2
  rw [Int.toNat_of_nonpos (by omega)]
  decide

theorem Dy.sub_num_neg {a b : Dy} (ha : a.num < 0) (hb : 0 ≤ b.num) :
    (a.sub b).num < 0 := by
  have h1 : a.num * 2 ^ b.exp < 0 :=
    mul_neg_of_neg_of_pos ha (by positivity)
  have h2 : (0 : Int) ≤ b.num * 2 ^ a.exp := by positivity
  simp only [Dy.sub]
  omega

-- ## Properties of the power-of-two split

theorem lp2_pos (n : Nat) : 0 < largest_power_of_2_less_than n := by
  unfold largest_power_of_2_less_than
  positivity

theorem ceil_lg_pos {n : Nat} (h : 2 ≤ n) : 0 < ceil_lg n := by
  rw [ceil_lg_eq_clog]
  exact Nat.clog_pos (by norm_num) (by omega)

theorem lp2_lt {n : Nat} (h : 2 ≤ n) : largest_power_of_2_less_than n < n := by
  unfold largest_power_of_2_less_than
  rw [ceil_lg_eq_clog]
  exact Nat.pow_pred_clog_lt_self (by norm_num) (by omega)

theorem le_pow_ceil_lg (n : Nat) : n ≤ 2 ^ ceil_lg n := by
  rw [ceil_lg_eq_clog]
  exact Nat.le_pow_clog (by norm_num) n

theorem le_two_lp2 {n : Nat} (h : 2 ≤ n) : n ≤ 2 * largest_power_of_2_less_than n := by
  have h1 := le_pow_ceil_lg n
  have h2 := ceil_lg_pos h
  unfold largest_power_of_2_less_than
  have h3 : ceil_lg n - 1 + 1 = ceil_lg n := by omega
  calc n ≤ 2 ^ ceil_lg n := h1
    _ = 2 * 2 ^ (ceil_lg n - 1) := by
        conv_lhs => rw [← h3]
        rw [pow_succ]
        ring

theorem ceil_lg_pow (k : Nat) : ceil_lg (2 ^ k) = k := by
  rw [ceil_lg_eq_clog]
  exact Nat.clog_pow 2 k (by norm_num)

-- ## The node graph and `make_tree` (merkle.py lines 6-46)

/-- A `Node` of `merkle.py`: a leaf holds one element's digest, an
internal node holds two children and the digest of their concatenated
values.  The Python `parent` back-reference is used only for bottom-up
walks; in this functional embedding those walks are the recursive
returns, so no parent field is needed. -/

theorem Node.value_node (l r : Node) (v : BS) : (Node.node l r v).value = v := rfl

/-- The leaf values of the subtree, in left-to-right order.  Python keeps
this sequence aliased in `MerkleTree.leaves`; here it is derived. -/

theorem set_take_of_le {α : Type} (l : List α) (i p : Nat) (x : α) (h : p ≤ i) :
    (l.set i x).take p = l.take p := by
  induction l generalizing i p with
  | nil => simp
  | cons a l ih =>
    cases p with
    | zero => simp
    | succ p =>
      cases i with
      | zero => omega
      | succ i => simp [List.set_cons_succ, List.take_succ_cons, ih i p (by omega)]

theorem set_drop_of_le {α : Type} (l : List α) (i p : Nat) (x : α) (h : p ≤ i) :
    (l.set i x).drop p = (l.drop p).set (i - p) x := by
  induction l generalizing i p with
  | nil => simp
  | cons a l ih =>
    cases p with
    | zero => simp
    | succ p =>
      cases i with
      | zero => omega
      | succ i =>
        simp only [List.set_cons_succ, List.drop_succ_cons]
        rw [ih i p (by omega)]
        have he : i + 1 - (p + 1) = i - p := by omega
        rw [he]

-- ## Unfolding lemmas for the fuel-driven definitions

theorem make_tree_fuel_congr (H : BS → BS) :
    ∀ n f1 f2 (l : List BS), l.length ≤ n → l.length ≤ f1 → l.length ≤ f2 →
      make_tree_fuel H f1 l = make_tree_fuel H f2 l := by
  intro n
  induction n using Nat.strong_induction_on with
  | _ n ih =>
    intro f1 f2 l hn h1 h2
    match f1, f2 with
    | 0, 0 => rfl
    | 0, g + 1 =>
      have h0 : l.length = 0 := by omega
      rw [make_tree_fuel, make_tree_fuel, if_pos (by omega)]
    | g + 1, 0 =>
      have h0 : l.length = 0 := by omega
      rw [make_tree_fuel, make_tree_fuel, if_pos (by omega)]
    | g1 + 1, g2 + 1 =>
      rw [make_tree_fuel, make_tree_fuel]
      by_cases hs : l.length ≤ 1
      · rw [if_pos hs, if_pos hs]
      · push_neg at hs
        rw [if_neg (by omega), if_neg (by omega)]
        have hp1 : 0 < largest_power_of_2_less_than l.length := lp2_pos _
        have hp2 : largest_power_of_2_less_than l.length < l.length := lp2_lt (by omega)
        have hn0 : 0 < n := by omega
        have htk : (l.take (largest_power_of_2_less_than l.length)).length ≤ n - 1 := by
          rw [List.length_take]
          omega
        have hdr : (l.drop (largest_power_of_2_less_than l.length)).length ≤ n - 1 := by
          rw [List.length_drop]
          omega
        have e1 := ih (n - 1) (by omega) g1 g2 (l.take (largest_power_of_2_less_than l.length))
          htk (by rw [List.length_take]; omega) (by rw [List.length_take]; omega)
        have e2 := ih (n - 1) (by omega) g1 g2 (l.drop (largest_power_of_2_less_than l.length))
          hdr (by rw [List.length_drop]; omega) (by rw [List.length_drop]; omega)
        simp only [e1, e2]

theorem make_tree_fuel_eq (H : BS → BS) (f : Nat) (l : List BS) (h : l.length ≤ f) :
    make_tree_fuel H f l = make_tree H l :=
  make_tree_fuel_congr H f f l.length l h h le_rfl

theorem make_tree_small (H : BS → BS) (l : List BS) (h : l.length ≤ 1) :
    make_tree H l = Node.leaf (l.headD NIL) := by
  match l, h with
  | [], _ => rfl
  | [a], _ => rfl

theorem make_tree_split (H : BS → BS) (l : List BS) (h : 2 ≤ l.length) :
    make_tree H l =
      Node.node (make_tree H (l.take (largest_power_of_2_less_than l.length)))
        (make_tree H (l.drop (largest_power_of_2_less_than l.length)))
        (H ((make_tree H (l.take (largest_power_of_2_less_than l.length))).value ++
            (make_tree H (l.drop (largest_power_of_2_less_than l.length))).value)) := by
  obtain ⟨k, hk⟩ : ∃ k, l.length = k + 1 := ⟨l.length - 1, by omega⟩
  have hp1 : 0 < largest_power_of_2_less_than l.length := lp2_pos _
  have hp2 : largest_power_of_2_less_than l.length < l.length := lp2_lt h
  have e0 : make_tree H l = make_tree_fuel H (k + 1) l := by rw [make_tree, hk]
  have e1 : make_tree_fuel H k (l.take (largest_power_of_2_less_than l.length)) =
      make_tree H (l.take (largest_power_of_2_less_than l.length)) :=
    make_tree_fuel_eq H k _ (by rw [List.length_take]; omega)
  have e2 : make_tree_fuel H k (l.drop (largest_power_of_2_less_than l.length)) =
      make_tree H (l.drop (largest_power_of_2_less_than l.length)) :=
    make_tree_fuel_eq H k _ (by rw [List.length_drop]; omega)
  rw [e0, make_tree_fuel, if_neg (by omega)]
  simp only [e1, e2]

theorem get_directions_fuel_congr :
    ∀ n f1 f2 (size index : Nat), size ≤ n → size ≤ f1 → size ≤ f2 →
      get_directions_fuel f1 size index = get_directions_fuel f2 size index := by
  intro n
  induction n using Nat.strong_induction_on with
  | _ n ih =>
    intro f1 f2 size index hn h1 h2
    match f1, f2 with
    | 0, 0 => rfl
    | 0, g + 1 =>
      rw [get_directions_fuel, get_directions_fuel, if_pos (by omega)]
    | g + 1, 0 =>
      rw [get_directions_fuel, get_directions_fuel, if_pos (by omega)]
    | g1 + 1, g2 + 1 =>
      rw [get_directions_fuel, get_directions_fuel]
      by_cases hs : size ≤ 1
      · rw [if_pos hs, if_pos hs]
      · push_neg at hs
        rw [if_neg (show ¬ size ≤ 1 by omega), if_neg (show ¬ size ≤ 1 by omega)]
        have hm1 : 0 < 2 ^ (ceil_lg size - 1) := by positivity
        have hm2 : 2 ^ (ceil_lg size - 1) < size := lp2_lt (by omega)
        have e1 := ih (n - 1) (by omega) g1 g2 (size - 2 ^ (ceil_lg size - 1))
          (index - 2 ^ (ceil_lg size - 1)) (by omega) (by omega) (by omega)
        have e2 := ih (n - 1) (by omega) g1 g2 (2 ^ (ceil_lg size - 1)) index
          (by omega) (by omega) (by omega)
        by_cases hb : index &&& 2 ^ (ceil_lg size - 1) = 0
        · simp only [hb, bne_self_eq_false, Bool.false_eq_true, if_false, e2]
        · simp only [bne_iff_ne, ne_eq, hb, not_false_eq_true, if_true, e1]

theorem get_directions_fuel_eq (f size index : Nat) (h : size ≤ f) :
    get_directions_fuel f size index = get_directions size index :=
  get_directions_fuel_congr f f size size index h h le_rfl

theorem get_directions_small (size index : Nat) (h : size ≤ 1) :
    get_directions size index = [] := by
  rw [get_directions]
  match size, h with
  | 0, _ => rfl
  | 1, _ => rw [get_directions_fuel, if_pos (by omega)]

theorem get_directions_right (size index : Nat) (h : 2 ≤ size)
    (hb : index &&& 2 ^ (ceil_lg size - 1) ≠ 0) :
    get_directions size index =
      true :: get_directions (size - 2 ^ (ceil_lg size - 1))
        (index - 2 ^ (ceil_lg size - 1)) := by
  obtain ⟨k, hk⟩ : ∃ k, size = k + 1 := ⟨size - 1, by omega⟩
  have hm1 : 0 < 2 ^ (ceil_lg size - 1) := by positivity
  have hm2 : 2 ^ (ceil_lg size - 1) < size := lp2_lt h
  have e0 : get_directions size index = get_directions_fuel (k + 1) size index := by
    rw [get_directions, hk]
  rw [e0, get_directions_fuel, if_neg (show ¬ size ≤ 1 by omega)]
  simp only [bne_iff_ne, ne_eq, hb, not_false_eq_true, if_true]
  rw [get_directions_fuel_eq k _ _ (by omega)]

theorem get_directions_left (size index : Nat) (h : 2 ≤ size)
    (hb : index &&& 2 ^ (ceil_lg size - 1) = 0) :
    get_directions size index =
      false :: get_directions (2 ^ (ceil_lg size - 1)) index := by
  obtain ⟨k, hk⟩ : ∃ k, size = k + 1 := ⟨size - 1, by omega⟩
  have hm1 : 0 < 2 ^ (ceil_lg size - 1) := by positivity
  have hm2 : 2 ^ (ceil_lg size - 1) < size := lp2_lt h
  have e0 : get_directions size index = get_directions_fuel (k + 1) size index := by
    rw [get_directions, hk]
  rw [e0, get_directions_fuel, if_neg (show ¬ size ≤ 1 by omega)]
  simp only [hb, bne_self_eq_false, Bool.false_eq_true, if_false]
  rw [get_directions_fuel_eq k _ _ (by omega)]

-- ## The mask test is a size comparison

theorem land_mask_eq_zero_iff {i k : Nat} (h : i < 2 ^ (k + 1)) :
    i &&& 2 ^ k = 0 ↔ i < 2 ^ k := by
  have hpow : 0 < (2 : Nat) ^ k := by positivity
  rw [Nat.and_two_pow]
  have hdiv : i / 2 ^ k < 2 := by
    rw [Nat.div_lt_iff_lt_mul hpow]
    omega
  rw [Nat.testBit_to_div_mod]
  have hle : i / 2 ^ k ≤ 1 := Nat.lt_succ_iff.mp hdiv
  rcases Nat.le_one_iff_eq_zero_or_eq_one.mp hle with h0 | h1
  · have : i < 2 ^ k := (Nat.div_eq_zero_iff hpow).mp h0
    simp [h0, this]
  · have : ¬ i < 2 ^ k := by
      rw [← Nat.div_eq_zero_iff hpow]
      omega
    simp [h1, this]

-- ## Basic structure of built trees

theorem Node.size_eq_leaves (t : Node) : t.size = t.leavesList.length := by
  induction t with
  | leaf v => rfl
  | node l r v ihl ihr => simp [Node.size, Node.leavesList, ihl, ihr]

theorem leavesList_make_tree (H : BS → BS) :
    ∀ n (l : List BS), l ≠ [] → l.length ≤ n → (make_tree H l).leavesList = l := by
  intro n
  induction n using Nat.strong_induction_on with
  | _ n ih =>
    intro l hne hn
    by_cases hs : l.length ≤ 1
    · have hlen1 : l.length = 1 := by
        have hpos := List.length_pos.mpr hne
        omega
      obtain ⟨a, rfl⟩ := List.length_eq_one.mp hlen1
      rw [make_tree_small H _ (by simp)]
      simp [Node.leavesList]
    · push_neg at hs
      have h2 : 2 ≤ l.length := hs
      have hp1 := lp2_pos l.length
      have hp2 := lp2_lt h2
      rw [make_tree_split H l h2]
      simp only [Node.leavesList]
      rw [ih (n - 1) (by omega) _
            (List.length_pos.mp (by rw [List.length_take]; omega))
            (by rw [List.length_take]; omega),
          ih (n - 1) (by omega) _
            (List.length_pos.mp (by rw [List.length_drop]; omega))
            (by rw [List.length_drop]; omega)]
      exact List.take_append_drop _ l

theorem size_make_tree (H : BS → BS) (l : List BS) (h : l ≠ []) :
    (make_tree H l).size = l.length := by
  rw [Node.size_eq_leaves, leavesList_make_tree H l.length l h le_rfl]

theorem value_length_make_tree (H : BS → BS) (dl : Nat) (hH : ∀ a, (H a).length = dl) :
    ∀ n (l : List BS), l ≠ [] → l.length ≤ n → (∀ e ∈ l, e.length = dl) →
      (make_tree H l).value.length = dl := by
  intro n
  induction n using Nat.strong_induction_on with
  | _ n ih =>
    intro l hne hn hel
    by_cases hs : l.length ≤ 1
    · have hlen1 : l.length = 1 := by
        have hpos := List.length_pos.mpr hne
        omega
      obtain ⟨a, rfl⟩ := List.length_eq_one.mp hlen1
      rw [make_tree_small H _ (by simp)]
      exact hel a (by simp)
    · push_neg at hs
      rw [make_tree_split H l hs]
      simp only [Node.value]
      exact hH _

theorem leavesVals_ofElements (H : BS → BS) (l : List BS) :
    (MerkleTree.ofElements H l).leavesVals = l := by
  unfold MerkleTree.ofElements
  by_cases h : l.isEmpty
  · rw [if_pos h]
    simp only [MerkleTree.leavesVals]
    exact (List.isEmpty_iff.mp h).symm
  · rw [if_neg h]
    simp only [MerkleTree.leavesVals]
    exact leavesList_make_tree H l.length l (by simpa [List.isEmpty_iff] using h) le_rfl

theorem size_ofElements (H : BS → BS) (l : List BS) :
    (MerkleTree.ofElements H l).size = l.length := by
  rw [MerkleTree.size, leavesVals_ofElements]

theorem root_ofElements (H : BS → BS) (l : List BS) (h : l ≠ []) :
    (MerkleTree.ofElements H l).root = (make_tree H l).value := by
  unfold MerkleTree.ofElements
  rw [if_neg (by simpa [List.isEmpty_iff] using h)]
  rfl

-- ## How `make_tree` grows under an appended leaf

theorem isPow2Nat_one : isPow2Nat 1 = true := by decide

theorem ceil_lg_pow_succ (k : Nat) : ceil_lg (2 ^ k + 1) = k + 1 := by
  rw [ceil_lg_eq_clog]
  have h1 : Nat.clog 2 (2 ^ k + 1) ≤ k + 1 := by
    rw [← Nat.le_pow_iff_clog_le (by norm_num)]
    have : (2 : Nat) ^ k + 2 ^ k ≤ 2 ^ (k + 1) := by
      rw [pow_succ]
      omega
    have hk : 1 ≤ (2 : Nat) ^ k := Nat.one_le_two_pow
    omega
  have h2 : k < Nat.clog 2 (2 ^ k + 1) := by
    rw [← Nat.pow_lt_iff_lt_clog (by norm_num)]
    omega
  omega

theorem not_isPow2Nat_lt_pow {n : Nat} (h2 : 2 ≤ n) (hnp : isPow2Nat n = false) :
    n < 2 ^ ceil_lg n := by
  have h1 := le_pow_ceil_lg n
  rcases Nat.lt_or_ge n (2 ^ ceil_lg n) with h | h
  · exact h
  · exfalso
    have heq : n = 2 ^ ceil_lg n := by omega
    have : isPow2Nat n = true := (isPow2Nat_iff n).mpr ⟨ceil_lg n, heq⟩
    rw [this] at hnp
    exact Bool.noConfusion hnp

theorem ceil_lg_succ_nonpow {n : Nat} (h2 : 2 ≤ n) (hnp : isPow2Nat n = false) :
    ceil_lg (n + 1) = ceil_lg n := by
  have hlt : n < 2 ^ ceil_lg n := not_isPow2Nat_lt_pow h2 hnp
  have hd1 : 0 < ceil_lg n := ceil_lg_pos h2
  have hlb : 2 ^ (ceil_lg n - 1) < n := lp2_lt h2
  have ha : Nat.clog 2 (n + 1) ≤ ceil_lg n := by
    rw [← Nat.le_pow_iff_clog_le (by norm_num)]
    omega
  have hb : ceil_lg n - 1 < Nat.clog 2 (n + 1) := by
    rw [← Nat.pow_lt_iff_lt_clog (by norm_num)]
    omega
  rw [ceil_lg_eq_clog]
  omega

theorem make_tree_snoc_pow (H : BS → BS) (l : List BS) (x : BS) (hne : l ≠ [])
    (hpow : isPow2Nat l.length = true) :
    make_tree H (l ++ [x]) =
      Node.node (make_tree H l) (Node.leaf x)
        (H ((make_tree H l).value ++ x)) := by
  have hlen : 0 < l.length := List.length_pos.mpr hne
  obtain ⟨k, hk⟩ := (isPow2Nat_iff _).mp hpow
  have hlen2 : (l ++ [x]).length = l.length + 1 := by simp
  have hsplit := make_tree_split H (l ++ [x]) (by omega)
  have hp : largest_power_of_2_less_than (l ++ [x]).length = l.length := by
    unfold largest_power_of_2_less_than
    rw [hlen2, hk, ceil_lg_pow_succ]
    simp [hk]
  rw [hsplit, hp, List.take_left, List.drop_left]
  have hx : make_tree H [x] = Node.leaf x := by
    rw [make_tree_small H [x] (by simp)]
    rfl
  rw [hx]
  rfl

theorem make_tree_snoc_nonpow (H : BS → BS) (l : List BS) (x : BS)
    (h2 : 2 ≤ l.length) (hnp : isPow2Nat l.length = false) :
    make_tree H (l ++ [x]) =
      Node.node (make_tree H (l.take (largest_power_of_2_less_than l.length)))
        (make_tree H (l.drop (largest_power_of_2_less_than l.length) ++ [x]))
        (H ((make_tree H (l.take (largest_power_of_2_less_than l.length))).value ++
            (make_tree H (l.drop (largest_power_of_2_less_than l.length) ++ [x])).value)) := by
  have hp2 : largest_power_of_2_less_than l.length < l.length := lp2_lt h2
  have hlen2 : (l ++ [x]).length = l.length + 1 := by simp
  have hsplit := make_tree_split H (l ++ [x]) (by omega)
  have hp : largest_power_of_2_less_than (l ++ [x]).length =
      largest_power_of_2_less_than l.length := by
    unfold largest_power_of_2_less_than
    rw [hlen2, ceil_lg_succ_nonpow h2 hnp]
  have htake : (l ++ [x]).take (largest_power_of_2_less_than l.length) =
      l.take (largest_power_of_2_less_than l.length) :=
    List.take_append_of_le_length (by omega)
  have hdrop : (l ++ [x]).drop (largest_power_of_2_less_than l.length) =
      l.drop (largest_power_of_2_less_than l.length) ++ [x] := by
    rw [List.drop_append_eq_append_drop]
    have : largest_power_of_2_less_than l.length - l.length = 0 := by omega
    rw [this]
    rfl
  rw [hsplit, hp, htake, hdrop]

-- ## Correctness of the `add` descent where it succeeds

theorem Dy.rep_neg {d : Dy} {z : Int} (h : d.Rep z) (hz : z < 0) : d.num < 0 := by
  rw [Dy.Rep] at h
  rw [h]
  exact mul_neg_of_neg_of_pos hz (by positivity)

theorem Dy.rep_half_pow {d : Dy} {j : Nat} (h : d.Rep (2 ^ (j + 1) : Nat)) :
    d.half.Rep (2 ^ j : Nat) := by
  simp only [Dy.Rep, Dy.half] at *
  rw [h]
  push_cast
  ring

theorem add_down_neg (H : BS → BS) (x : BS) :
    ∀ (t : Node) (s lt : Dy), s.num < 0 → 0 ≤ lt.num →
      add_down H x t s lt = none := by
  intro t
  induction t with
  | leaf v =>
    intro s lt hs hlt
    rw [add_down]
    simp [is_power_of_2_neg hs]
  | node l r v ihl ihr =>
    intro s lt hs hlt
    rw [add_down]
    simp only [is_power_of_2_neg hs, Bool.false_eq_true, if_false]
    rw [ihr (s.sub lt) lt.half (Dy.sub_num_neg hs hlt) (by rw [Dy.half_num]; exact hlt)]
    rfl

theorem add_down_stop (H : BS → BS) (x : BS) (t : Node) (s lt : Dy)
    (hp : is_power_of_2 s = true) :
    add_down H x t s lt = some (.node t (.leaf x) (H (t.value ++ x))) := by
  rw [add_down.eq_def, if_pos hp]

theorem add_down_step (H : BS → BS) (x : BS) (l r : Node) (v : BS) (s lt : Dy)
    (hp : is_power_of_2 s = false) :
    add_down H x (Node.node l r v) s lt =
      (add_down H x r (s.sub lt) lt.half).map fun r2 =>
        Node.node l r2 (H (l.value ++ r2.value)) := by
  rw [add_down.eq_def]
  simp [hp]

theorem add_down_make (H : BS → BS) (x : BS) :
    ∀ n (l : List BS) (s lt : Dy) (t2 : Node), l ≠ [] → l.length ≤ n →
      s.Rep l.length → 0 ≤ lt.num →
      (isPow2Nat l.length = false → lt.Rep (2 ^ (ceil_lg l.length - 1) : Nat)) →
      add_down H x (make_tree H l) s lt = some t2 →
      t2 = make_tree H (l ++ [x]) := by
  intro n
  induction n using Nat.strong_induction_on with
  | _ n ih =>
    intro l s lt t2 hne hn hs hlt0 hlt h
    have hlen : 0 < l.length := List.length_pos.mpr hne
    by_cases hpow : isPow2Nat l.length = true
    · rw [add_down_stop H x _ s lt (by rw [is_power_of_2_rep hs]; exact hpow)] at h
      rw [make_tree_snoc_pow H l x hne hpow]
      exact (Option.some_inj.mp h).symm
    · rw [Bool.not_eq_true] at hpow
      have h2 : 2 ≤ l.length := by
        rcases Nat.lt_or_ge l.length 2 with hl2 | hl2
        · exfalso
          have h1 : l.length = 1 := by omega
          rw [h1, isPow2Nat_one] at hpow
          exact Bool.noConfusion hpow
        · exact hl2
      have hrep := hlt hpow
      have hp1 := lp2_pos l.length
      have hp2 := lp2_lt h2
      have hple := le_two_lp2 h2
      have hd1 : 0 < ceil_lg l.length := ceil_lg_pos h2
      have hdropne : l.drop (largest_power_of_2_less_than l.length) ≠ [] :=
        List.length_pos.mp (by rw [List.length_drop]; omega)
      have hdroplen : (l.drop (largest_power_of_2_less_than l.length)).length =
          l.length - largest_power_of_2_less_than l.length := List.length_drop _ _
      rw [make_tree_split H l h2,
        add_down_step H x _ _ _ s lt
          (by rw [is_power_of_2_rep hs]; exact hpow)] at h
      rcases Option.map_eq_some'.mp h with ⟨r2, hr2, ht2⟩
      have hsub : (s.sub lt).Rep
          ((l.length - largest_power_of_2_less_than l.length : Nat) : Int) := by
        have hrs := Dy.rep_sub hs hrep
        have hcast : ((l.length : Int) - ((2 ^ (ceil_lg l.length - 1) : Nat) : Int)) =
            ((l.length - largest_power_of_2_less_than l.length : Nat) : Int) := by
          unfold largest_power_of_2_less_than at *
          omega
        rw [← hcast]
        exact hrs
      have hsubd : (s.sub lt).Rep
          (((l.drop (largest_power_of_2_less_than l.length)).length : Nat) : Int) := by
        rw [hdroplen]
        exact hsub
      have hr2eq : r2 =
          make_tree H (l.drop (largest_power_of_2_less_than l.length) ++ [x]) := by
        by_cases hp : isPow2Nat (l.length - largest_power_of_2_less_than l.length) = true
        · refine ih (n - 1) (by omega) _ (s.sub lt) lt.half r2 hdropne (by omega) hsubd
            (by rw [Dy.half_num]; exact hlt0) ?_ hr2
          intro hcon
          rw [hdroplen, hp] at hcon
          exact Bool.noConfusion hcon
        · rw [Bool.not_eq_true] at hp
          have hq2 : 2 ≤ l.length - largest_power_of_2_less_than l.length := by
            rcases Nat.lt_or_ge (l.length - largest_power_of_2_less_than l.length) 2 with hq | hq
            · exfalso
              have h1 : l.length - largest_power_of_2_less_than l.length = 1 := by omega
              rw [h1, isPow2Nat_one] at hp
              exact Bool.noConfusion hp
            · exact hq
          have hd2 : 2 ≤ ceil_lg l.length := by
            have hgt : (2 : Nat) ^ 1 < l.length := by omega
            have := (Nat.pow_lt_iff_lt_clog (by norm_num)).mp hgt
            rw [ceil_lg_eq_clog]
            omega
          have he : ceil_lg l.length - 1 = ceil_lg l.length - 2 + 1 := by omega
          have hrep2 : lt.Rep ((2 ^ (ceil_lg l.length - 2 + 1) : Nat)) := by
            rw [← he]
            exact hrep
          have hhalf : lt.half.Rep ((2 ^ (ceil_lg l.length - 2) : Nat)) :=
            Dy.rep_half_pow hrep2
          by_cases htrack : 2 ^ (ceil_lg l.length - 2) <
              l.length - largest_power_of_2_less_than l.length
          · have hclog : ceil_lg (l.length - largest_power_of_2_less_than l.length) =
                ceil_lg l.length - 1 := by
              have hub : l.length - largest_power_of_2_less_than l.length ≤
                  2 ^ (ceil_lg l.length - 1) := by
                unfold largest_power_of_2_less_than at *
                omega
              have ha : Nat.clog 2 (l.length - largest_power_of_2_less_than l.length) ≤
                  ceil_lg l.length - 1 := by
                rw [← Nat.le_pow_iff_clog_le (by norm_num)]
                exact hub
              have hb : ceil_lg l.length - 2 <
                  Nat.clog 2 (l.length - largest_power_of_2_less_than l.length) := by
                rw [← Nat.pow_lt_iff_lt_clog (by norm_num)]
                exact htrack
              rw [ceil_lg_eq_clog]
              omega
          -- the tracked half is the true left-subtree size one level down
            refine ih (n - 1) (by omega) _ (s.sub lt) lt.half r2 hdropne (by omega) hsubd
              (by rw [Dy.half_num]; exact hlt0) ?_ hr2
            intro hcon2
            rw [hdroplen, hclog]
            have he2 : ceil_lg l.length - 1 - 1 = ceil_lg l.length - 2 := by omega
            rw [he2]
            exact hhalf
          · -- mistracked: the code drives the size negative and crashes (`none`)
            exfalso
            push_neg at htrack
            have hstrict : l.length - largest_power_of_2_less_than l.length <
                2 ^ (ceil_lg l.length - 2) := by
              rcases Nat.lt_or_ge (l.length - largest_power_of_2_less_than l.length)
                  (2 ^ (ceil_lg l.length - 2)) with hq | hq
              · exact hq
              · exfalso
                have heq : l.length - largest_power_of_2_less_than l.length =
                    2 ^ (ceil_lg l.length - 2) := by omega
                have hcon3 : isPow2Nat (l.length - largest_power_of_2_less_than l.length) = true :=
                  (isPow2Nat_iff _).mpr ⟨ceil_lg l.length - 2, heq⟩
                rw [hp] at hcon3
                exact Bool.noConfusion hcon3
            have hsub2 : ((s.sub lt).sub lt.half).Rep
                (((l.length - largest_power_of_2_less_than l.length : Nat) : Int) -
                  ((2 ^ (ceil_lg l.length - 2) : Nat) : Int)) :=
              Dy.rep_sub hsub hhalf
            have hneg : ((s.sub lt).sub lt.half).num < 0 := by
              apply Dy.rep_neg hsub2
              have hcast : ((l.length - largest_power_of_2_less_than l.length : Nat) : Int) <
                  ((2 ^ (ceil_lg l.length - 2) : Nat) : Int) := by
                exact_mod_cast hstrict
              omega
            rw [make_tree_split H _
                (by rw [hdroplen]; exact hq2 :
                  2 ≤ (l.drop (largest_power_of_2_less_than l.length)).length)] at hr2
            rw [add_down_step H x _ _ _ (s.sub lt) lt.half
              (by rw [is_power_of_2_rep hsub, hp])] at hr2
            rw [add_down_neg H x _ _ _ hneg
              (by rw [Dy.half_num, Dy.half_num]; exact hlt0)] at hr2
            exact Option.noConfusion hr2
      rw [make_tree_snoc_nonpow H l x h2 hpow, ← ht2, hr2eq]

theorem root_node_ofElements (H : BS → BS) (l : List BS) (h : l ≠ []) :
    (MerkleTree.ofElements H l).root_node = some (make_tree H l) := by
  unfold MerkleTree.ofElements
  rw [if_neg (by simpa [List.isEmpty_iff] using h)]

theorem depth_ofElements (H : BS → BS) (l : List BS) (h : l ≠ []) :
    (MerkleTree.ofElements H l).depth = some (ceil_lg l.length) := by
  unfold MerkleTree.ofElements
  rw [if_neg (by simpa [List.isEmpty_iff] using h)]

/-- When `add` on a constructor-built tree returns a tree at all, the
result is exactly the constructor-built tree over the extended element
list (root node and stored depth included). -/

theorem MerkleTree.add_sound (H : BS → BS) (l : List BS) (x : BS) (t2 : MerkleTree)
    (h : (MerkleTree.ofElements H l).add H x = some t2) :
    t2 = MerkleTree.ofElements H (l ++ [x]) := by
  by_cases hl : l = []
  · subst hl
    rw [MerkleTree.add] at h
    have hroot : (MerkleTree.ofElements H ([] : List BS)).root_node = none := rfl
    rw [hroot] at h
    have ht2 : t2 = ⟨some (.leaf x), some 0⟩ := (Option.some_inj.mp h).symm
    rw [ht2]
    unfold MerkleTree.ofElements
    rw [if_neg (by simp)]
    simp only [List.nil_append]
    have hmk : make_tree H [x] = Node.leaf x := by
      rw [make_tree_small H [x] (by simp)]
      rfl
    rw [hmk]
    rfl
  · have hroot := root_node_ofElements H l hl
    have hdepth := depth_ofElements H l hl
    have hsize := size_ofElements H l
    rw [MerkleTree.add, hroot] at h
    simp only [hdepth, hsize, Option.getD_some] at h
    rcases Option.map_eq_some'.mp h with ⟨r2, hr2, ht2⟩
    have hlen : 0 < l.length := List.length_pos.mpr hl
    have hlt0 : 0 ≤ (if ceil_lg l.length = 0 then Dy.ofNat 0
        else Dy.ofNat (2 ^ (ceil_lg l.length - 1))).num := by
      by_cases hd : ceil_lg l.length = 0 <;> simp [hd, Dy.ofNat]
    have hltrep : isPow2Nat l.length = false →
        (if ceil_lg l.length = 0 then Dy.ofNat 0
          else Dy.ofNat (2 ^ (ceil_lg l.length - 1))).Rep
          ((2 ^ (ceil_lg l.length - 1) : Nat)) := by
      intro hnp
      have h2 : 2 ≤ l.length := by
        rcases Nat.lt_or_ge l.length 2 with hl2 | hl2
        · exfalso
          have h1 : l.length = 1 := by omega
          rw [h1, isPow2Nat_one] at hnp
          exact Bool.noConfusion hnp
        · exact hl2
      rw [if_neg (by have := ceil_lg_pos h2; omega)]
      exact Dy.rep_ofNat _
    have hr2eq := add_down_make H x l.length l (Dy.ofNat l.length)
      (if ceil_lg l.length = 0 then Dy.ofNat 0 else Dy.ofNat (2 ^ (ceil_lg l.length - 1)))
      r2 hl le_rfl (Dy.rep_ofNat _) hlt0 hltrep hr2
    have hxne : l ++ [x] ≠ [] := by simp
    have hlen2 : (l ++ [x]).length = l.length + 1 := by simp
    rw [← ht2, hr2eq]
    have hofe : MerkleTree.ofElements H (l ++ [x]) =
        ⟨some (make_tree H (l ++ [x])), some (ceil_lg (l ++ [x]).length)⟩ := by
      unfold MerkleTree.ofElements
      rw [if_neg (by simpa [List.isEmpty_iff] using hxne)]
    rw [hofe]
    have hdeq : (if is_power_of_2 (Dy.ofNat l.length) then ceil_lg l.length + 1
        else ceil_lg l.length) = ceil_lg (l ++ [x]).length := by
      rw [hlen2, is_power_of_2_rep (Dy.rep_ofNat l.length)]
      by_cases hpow : isPow2Nat l.length = true
      · obtain ⟨k, hk⟩ := (isPow2Nat_iff _).mp hpow
        rw [if_pos hpow, hk, ceil_lg_pow_succ, ceil_lg_pow]
      · rw [Bool.not_eq_true] at hpow
        have h2 : 2 ≤ l.length := by
          rcases Nat.lt_or_ge l.length 2 with hl2 | hl2
          · exfalso
            have h1 : l.length = 1 := by omega
            rw [h1, isPow2Nat_one] at hpow
            exact Bool.noConfusion hpow
          · exact hl2
        rw [if_neg (by rw [hpow]; exact Bool.false_ne_true), ceil_lg_succ_nonpow h2 hpow]
    rw [hdeq]

-- ## Correctness of `set` on an in-range index

theorem setLeaf_make (H : BS → BS) (x : BS) :
    ∀ n (l : List BS) (i : Nat), l ≠ [] → l.length ≤ n → i < l.length →
      Node.setLeaf H (make_tree H l) i x = make_tree H (l.set i x) := by
  intro n
  induction n using Nat.strong_induction_on with
  | _ n ih =>
    intro l i hne hn hi
    by_cases hs : l.length ≤ 1
    · have hlen1 : l.length = 1 := by
        have hpos := List.length_pos.mpr hne
        omega
      obtain ⟨a, rfl⟩ := List.length_eq_one.mp hlen1
      have hi0 : i = 0 := by
        simp at hi
        exact hi
      subst hi0
      rw [make_tree_small H [a] (by simp), make_tree_small H ([a].set 0 x) (by simp)]
      rfl
    · push_neg at hs
      have h2 : 2 ≤ l.length := hs
      have hp1 := lp2_pos l.length
      have hp2 := lp2_lt h2
      have hsz : (make_tree H (l.take (largest_power_of_2_less_than l.length))).size =
          largest_power_of_2_less_than l.length := by
        rw [size_make_tree H _ (List.length_pos.mp (by rw [List.length_take]; omega))]
        rw [List.length_take]
        omega
      have hlenset : (l.set i x).length = l.length := List.length_set l i x
      have hsplit2 := make_tree_split H (l.set i x) (by omega)
      have hpset : largest_power_of_2_less_than (l.set i x).length =
          largest_power_of_2_less_than l.length := by rw [hlenset]
      rw [make_tree_split H l h2, Node.setLeaf, hsz]
      by_cases hip : i < largest_power_of_2_less_than l.length
      · rw [if_pos hip]
        rw [hsplit2, hpset]
        have htake : (l.set i x).take (largest_power_of_2_less_than l.length) =
            (l.take (largest_power_of_2_less_than l.length)).set i x := List.set_take
        have hdrop : (l.set i x).drop (largest_power_of_2_less_than l.length) =
            l.drop (largest_power_of_2_less_than l.length) := List.drop_set_of_lt _ _ hip
        rw [htake, hdrop]
        rw [ih (n - 1) (by omega) (l.take (largest_power_of_2_less_than l.length)) i
          (List.length_pos.mp (by rw [List.length_take]; omega))
          (by rw [List.length_take]; omega)
          (by rw [List.length_take]; omega)]
      · rw [if_neg hip]
        push_neg at hip
        rw [hsplit2, hpset]
        have htake : (l.set i x).take (largest_power_of_2_less_than l.length) =
            l.take (largest_power_of_2_less_than l.length) := set_take_of_le l i _ x hip
        have hdrop : (l.set i x).drop (largest_power_of_2_less_than l.length) =
            (l.drop (largest_power_of_2_less_than l.length)).set
              (i - largest_power_of_2_less_than l.length) x := set_drop_of_le l i _ x hip
        rw [htake, hdrop]
        rw [ih (n - 1) (by omega) (l.drop (largest_power_of_2_less_than l.length))
          (i - largest_power_of_2_less_than l.length)
          (List.length_pos.mp (by rw [List.length_drop]; omega))
          (by rw [List.length_drop]; omega)
          (by rw [List.length_drop]; omega)]

/-- `set` on an in-range index rebuilds exactly the constructor tree over
the point-updated element list. -/

theorem MerkleTree.set_sound (H : BS → BS) (l : List BS) (i : Nat) (x : BS)
    (hi : i < l.length) :
    (MerkleTree.ofElements H l).set H i x =
      some (MerkleTree.ofElements H (l.set i x)) := by
  have hne : l ≠ [] := by
    intro hcon
    rw [hcon] at hi
    simp at hi
  have hroot := root_node_ofElements H l hne
  have hdepth := depth_ofElements H l hne
  have hsize := size_ofElements H l
  rw [MerkleTree.set, hsize]
  rw [if_pos (by omega), if_neg (by omega)]
  rw [hroot, Option.map_some']
  have hton : ((i : Int)).toNat = i := Int.toNat_natCast i
  rw [hton, setLeaf_make H x l.length l i hne le_rfl hi]
  have hsetne : l.set i x ≠ [] := by
    intro hcon
    have := List.length_set l i x
    rw [hcon] at this
    simp at this
    omega
  rw [hdepth]
  unfold MerkleTree.ofElements
  rw [if_neg (by simpa [List.isEmpty_iff] using hsetne)]
  rw [List.length_set]

-- ## Path lengths of `get_directions`

theorem get_directions_length_le :
    ∀ n size index, size ≤ n → index < size →
      (get_directions size index).length ≤ ceil_lg size := by
  intro n
  induction n using Nat.strong_induction_on with
  | _ n ih =>
    intro size index hn hi
    by_cases hs : size ≤ 1
    · rw [get_directions_small size index hs]
      simp
    · push_neg at hs
      have h2 : 2 ≤ size := hs
      have hd1 := ceil_lg_pos h2
      have hp1 : 0 < 2 ^ (ceil_lg size - 1) := by positivity
      have hp2 : 2 ^ (ceil_lg size - 1) < size := lp2_lt h2
      have hple : size ≤ 2 * 2 ^ (ceil_lg size - 1) := le_two_lp2 h2
      have hmask : index < 2 ^ (ceil_lg size - 1 + 1) := by
        rw [pow_succ]
        omega
      by_cases hb : index &&& 2 ^ (ceil_lg size - 1) = 0
      · have hilt : index < 2 ^ (ceil_lg size - 1) := (land_mask_eq_zero_iff hmask).mp hb
        rw [get_directions_left size index h2 hb]
        have hrec := ih (n - 1) (by omega) (2 ^ (ceil_lg size - 1)) index (by omega) hilt
        rw [ceil_lg_pow] at hrec
        simp only [List.length_cons]
        omega
      · have hige : 2 ^ (ceil_lg size - 1) ≤ index := by
          rcases Nat.lt_or_ge index (2 ^ (ceil_lg size - 1)) with hq | hq
          · exact absurd ((land_mask_eq_zero_iff hmask).mpr hq) hb
          · exact hq
        rw [get_directions_right size index h2 hb]
        have hrec := ih (n - 1) (by omega) (size - 2 ^ (ceil_lg size - 1))
          (index - 2 ^ (ceil_lg size - 1)) (by omega) (by omega)
        have hcl : ceil_lg (size - 2 ^ (ceil_lg size - 1)) ≤ ceil_lg size - 1 := by
          rw [ceil_lg_eq_clog, ← Nat.le_pow_iff_clog_le (by norm_num)]
          omega
        simp only [List.length_cons]
        omega

theorem get_directions_length_zero :
    ∀ n size, size ≤ n → 1 ≤ size → (get_directions size 0).length = ceil_lg size := by
  intro n
  induction n using Nat.strong_induction_on with
  | _ n ih =>
    intro size hn h1
    by_cases hs : size ≤ 1
    · have hone : size = 1 := by omega
      subst hone
      rw [get_directions_small 1 0 le_rfl]
      rfl
    · push_neg at hs
      have h2 : 2 ≤ size := hs
      have hd1 := ceil_lg_pos h2
      have hp1 : 0 < 2 ^ (ceil_lg size - 1) := by positivity
      have hp2 : 2 ^ (ceil_lg size - 1) < size := lp2_lt h2
      rw [get_directions_left size 0 h2 (Nat.zero_and _)]
      have hrec := ih (n - 1) (by omega) (2 ^ (ceil_lg size - 1)) (by omega)
        Nat.one_le_two_pow
      rw [ceil_lg_pow] at hrec
      simp only [List.length_cons]
      omega

-- ## The verification fold

theorem verify_fold_append (H : BS → BS) :
    ∀ (p1 : List BS) (d1 : List Bool) (c : BS) (p2 : List BS) (d2 : List Bool),
      p1.length = d1.length →
      verify_fold H c (p1 ++ p2) (d1 ++ d2) =
        verify_fold H (verify_fold H c p1 d1) p2 d2 := by
  intro p1
  induction p1 with
  | nil =>
    intro d1 c p2 d2 h
    have hd : d1 = [] := List.length_eq_zero.mp (by simpa using h.symm)
    subst hd
    rfl
  | cons a p ih =>
    intro d1 c p2 d2 h
    cases d1 with
    | nil => simp at h
    | cons b db =>
      simp only [List.cons_append, verify_fold]
      exact ih db _ p2 d2 (by simpa using h)

theorem verify_fold_single (H : BS → BS) (c h : BS) (b : Bool) :
    verify_fold H c [h] [b] = if b then H (h ++ c) else H (c ++ h) := rfl

theorem verify_fold_length (H : BS → BS) (dl : Nat) (hH : ∀ a, (H a).length = dl) :
    ∀ (p : List BS) (d : List Bool) (c : BS), p ≠ [] → p.length = d.length →
      (verify_fold H c p d).length = dl := by
  intro p
  induction p with
  | nil => intro d c hne _; exact absurd rfl hne
  | cons a p ih =>
    intro d c hne hl
    cases d with
    | nil => simp at hl
    | cons b db =>
      rw [verify_fold]
      by_cases hp : p = []
      · subst hp
        have hdb : db = [] := List.length_eq_zero.mp (by simpa using hl.symm)
        subst hdb
        rw [verify_fold]
        by_cases hb : b = true <;> simp [hb, hH]
      · exact ih db _ hp (by simpa using hl)

-- ## Completeness: the generated proof re-folds to the root

theorem prove_fold_root (H : BS → BS) :
    ∀ n (l : List BS) (i : Nat) (hn : l.length ≤ n) (hi : i < l.length),
      ((make_tree H l).proveLeaf i).length = (get_directions l.length i).length ∧
      verify_fold H (l.get ⟨i, hi⟩) ((make_tree H l).proveLeaf i)
          (get_directions l.length i).reverse = (make_tree H l).value := by
  intro n
  induction n using Nat.strong_induction_on with
  | _ n ih =>
    intro l i hn hi
    by_cases hs : l.length ≤ 1
    · have hlen1 : l.length = 1 := by omega
      obtain ⟨a, rfl⟩ := List.length_eq_one.mp hlen1
      have hi0 : i = 0 := by simpa using hi
      subst hi0
      rw [make_tree_small H [a] (by simp), get_directions_small _ _ (by simpa using hs)]
      constructor
      · rfl
      · rfl
    · push_neg at hs
      have h2 : 2 ≤ l.length := hs
      have hd1 := ceil_lg_pos h2
      have hp1 := lp2_pos l.length
      have hp2 := lp2_lt h2
      have hple := le_two_lp2 h2
      have htkne : l.take (largest_power_of_2_less_than l.length) ≠ [] :=
        List.length_pos.mp (by rw [List.length_take]; omega)
      have hdrne : l.drop (largest_power_of_2_less_than l.length) ≠ [] :=
        List.length_pos.mp (by rw [List.length_drop]; omega)
      have htklen : (l.take (largest_power_of_2_less_than l.length)).length =
          largest_power_of_2_less_than l.length := by rw [List.length_take]; omega
      have hdrlen : (l.drop (largest_power_of_2_less_than l.length)).length =
          l.length - largest_power_of_2_less_than l.length := List.length_drop _ _
      have hsz : (make_tree H (l.take (largest_power_of_2_less_than l.length))).size =
          largest_power_of_2_less_than l.length := by
        rw [size_make_tree H _ htkne, htklen]
      have hmask : i < 2 ^ (ceil_lg l.length - 1 + 1) := by
        have : 2 ^ (ceil_lg l.length - 1 + 1) = 2 * 2 ^ (ceil_lg l.length - 1) := by
          rw [pow_succ]
          ring
        unfold largest_power_of_2_less_than at hple
        omega
      rw [make_tree_split H l h2]
      by_cases hb : i &&& 2 ^ (ceil_lg l.length - 1) = 0
      · -- left: the leaf lives in the left, power-of-two, subtree
        have hilt : i < 2 ^ (ceil_lg l.length - 1) := (land_mask_eq_zero_iff hmask).mp hb
        have hiltp : i < largest_power_of_2_less_than l.length := hilt
        have hitk : i < (l.take (largest_power_of_2_less_than l.length)).length := by omega
        have hdir := get_directions_left l.length i h2 hb
        have hpowlp : (2 : Nat) ^ (ceil_lg l.length - 1) =
            largest_power_of_2_less_than l.length := rfl
        rw [hpowlp] at hdir
        obtain ⟨ihlen, ihfold⟩ := ih (n - 1) (by omega)
          (l.take (largest_power_of_2_less_than l.length)) i (by omega) hitk
        have hget : (l.take (largest_power_of_2_less_than l.length)).get ⟨i, hitk⟩ =
            l.get ⟨i, hi⟩ := by
          simp [List.getElem_take]
        rw [Node.proveLeaf, hsz, if_pos hiltp, hdir]
        rw [hget] at ihfold
        rw [htklen] at ihlen ihfold
        constructor
        · simp only [List.length_append, List.length_cons, List.length_singleton, List.length_nil]
          omega
        · rw [List.reverse_cons]
          rw [verify_fold_append H _ _ _ _ _ (by rw [List.length_reverse]; omega)]
          rw [ihfold]
          rfl
      · -- right: descend into the right subtree
        have hige : 2 ^ (ceil_lg l.length - 1) ≤ i := by
          rcases Nat.lt_or_ge i (2 ^ (ceil_lg l.length - 1)) with hq | hq
          · exact absurd ((land_mask_eq_zero_iff hmask).mpr hq) hb
          · exact hq
        have higep : largest_power_of_2_less_than l.length ≤ i := hige
        have hidr : i - largest_power_of_2_less_than l.length <
            (l.drop (largest_power_of_2_less_than l.length)).length := by omega
        have hdir := get_directions_right l.length i h2 hb
        have hpowlp : (2 : Nat) ^ (ceil_lg l.length - 1) =
            largest_power_of_2_less_than l.length := rfl
        rw [hpowlp] at hdir
        obtain ⟨ihlen, ihfold⟩ := ih (n - 1) (by omega)
          (l.drop (largest_power_of_2_less_than l.length))
          (i - largest_power_of_2_less_than l.length) (by omega) hidr
        have hget : (l.drop (largest_power_of_2_less_than l.length)).get
            ⟨i - largest_power_of_2_less_than l.length, hidr⟩ = l.get ⟨i, hi⟩ := by
          have he : largest_power_of_2_less_than l.length +
              (i - largest_power_of_2_less_than l.length) = i := by omega
          simp only [List.get_eq_getElem, List.getElem_drop, he]
        rw [Node.proveLeaf, hsz, if_neg (by omega), hdir]
        rw [hget] at ihfold
        rw [hdrlen] at ihlen ihfold
        constructor
        · simp only [List.length_append, List.length_cons, List.length_singleton, List.length_nil]
          omega
        · rw [List.reverse_cons]
          rw [verify_fold_append H _ _ _ _ _ (by rw [List.length_reverse]; omega)]
          rw [ihfold]
          rfl

-- ## Soundness: accepted proofs pin down the element and the proof

theorem sound_fold (H : BS → BS) (dl : Nat) (hinj : Function.Injective H)
    (hH : ∀ a, (H a).length = dl) :
    ∀ n (l : List BS) (e : BS) (j : Nat) (pf : List BS), l.length ≤ n →
      (∀ y ∈ l, y.length = dl) → e.length = dl → ∀ (hj : j < l.length),
      pf.length = (get_directions l.length j).length →
      verify_fold H e pf (get_directions l.length j).reverse = (make_tree H l).value →
      e = l.get ⟨j, hj⟩ ∧ pf = (make_tree H l).proveLeaf j := by
  intro n
  induction n using Nat.strong_induction_on with
  | _ n ih =>
    intro l e j pf hn hel he hj hpl hacc
    by_cases hs : l.length ≤ 1
    · have hlen1 : l.length = 1 := by omega
      obtain ⟨a, rfl⟩ := List.length_eq_one.mp hlen1
      have hj0 : j = 0 := by simpa using hj
      subst hj0
      rw [get_directions_small _ _ (by simp)] at hpl hacc
      have hpf : pf = [] := List.length_eq_zero.mp (by simpa using hpl)
      subst hpf
      rw [make_tree_small H [a] (by simp)] at hacc ⊢
      exact ⟨hacc, rfl⟩
    · push_neg at hs
      have h2 : 2 ≤ l.length := hs
      have hd1 := ceil_lg_pos h2
      have hp1 := lp2_pos l.length
      have hp2 := lp2_lt h2
      have hple := le_two_lp2 h2
      have hpowlp : (2 : Nat) ^ (ceil_lg l.length - 1) =
          largest_power_of_2_less_than l.length := rfl
      have htkne : l.take (largest_power_of_2_less_than l.length) ≠ [] :=
        List.length_pos.mp (by rw [List.length_take]; omega)
      have hdrne : l.drop (largest_power_of_2_less_than l.length) ≠ [] :=
        List.length_pos.mp (by rw [List.length_drop]; omega)
      have htklen : (l.take (largest_power_of_2_less_than l.length)).length =
          largest_power_of_2_less_than l.length := by rw [List.length_take]; omega
      have hdrlen : (l.drop (largest_power_of_2_less_than l.length)).length =
          l.length - largest_power_of_2_less_than l.length := List.length_drop _ _
      have hsz : (make_tree H (l.take (largest_power_of_2_less_than l.length))).size =
          largest_power_of_2_less_than l.length := by
        rw [size_make_tree H _ htkne, htklen]
      have hmask : j < 2 ^ (ceil_lg l.length - 1 + 1) := by
        have hppow : 2 ^ (ceil_lg l.length - 1 + 1) = 2 * 2 ^ (ceil_lg l.length - 1) := by
          rw [pow_succ]
          ring
        rw [hpowlp] at hppow
        omega
      have hvl : (make_tree H (l.take (largest_power_of_2_less_than l.length))).value.length
          = dl :=
        value_length_make_tree H dl hH _ _ htkne le_rfl
          (fun y hy => hel y (List.take_subset _ _ hy))
      have hvr : (make_tree H (l.drop (largest_power_of_2_less_than l.length))).value.length
          = dl :=
        value_length_make_tree H dl hH _ _ hdrne le_rfl
          (fun y hy => hel y (List.drop_subset _ _ hy))
      rw [make_tree_split H l h2] at hacc ⊢
      rw [Node.value_node] at hacc
      by_cases hb : j &&& 2 ^ (ceil_lg l.length - 1) = 0
      · -- the direction path starts with `left`
        have hjlt : j < largest_power_of_2_less_than l.length := by
          have := (land_mask_eq_zero_iff hmask).mp hb
          omega
        have hdir := get_directions_left l.length j h2 hb
        rw [hpowlp] at hdir
        rw [hdir] at hpl hacc
        have hpfne : pf ≠ [] := by
          intro hc
          rw [hc] at hpl
          simp at hpl
        obtain ⟨pf1, s, hpf⟩ : ∃ pf1 s, pf = pf1 ++ [s] :=
          ⟨pf.dropLast, pf.getLast hpfne, (List.dropLast_append_getLast hpfne).symm⟩
        subst hpf
        have hlenp : pf1.length =
            (get_directions (largest_power_of_2_less_than l.length) j).length := by
          rw [List.length_append] at hpl
          simp only [List.length_cons, List.length_singleton, List.length_nil] at hpl
          omega
        rw [List.reverse_cons,
          verify_fold_append H pf1 _ _ _ _ (by rw [List.length_reverse]; omega),
          verify_fold_single] at hacc
        rw [if_neg (by simp)] at hacc
        have hf1len : (verify_fold H e pf1
            (get_directions (largest_power_of_2_less_than l.length) j).reverse).length = dl := by
          by_cases hp1e : pf1 = []
          · rw [hp1e]
            exact he
          · exact verify_fold_length H dl hH pf1 _ e hp1e (by rw [List.length_reverse]; omega)
        obtain ⟨hfl, hsr⟩ :=
          List.append_inj (hinj hacc) (by omega)
        have hjtk : j < (l.take (largest_power_of_2_less_than l.length)).length := by omega
        obtain ⟨he1, hp1⟩ := ih (n - 1) (by omega)
          (l.take (largest_power_of_2_less_than l.length)) e j pf1 (by omega)
          (fun y hy => hel y (List.take_subset _ _ hy)) he hjtk
          (by rw [htklen]; exact hlenp)
          (by rw [htklen]; exact hfl)
        constructor
        · rw [he1]
          simp [List.getElem_take]
        · rw [Node.proveLeaf, hsz, if_pos hjlt, hp1, hsr]
      · -- the direction path starts with `right`
        have hjge : largest_power_of_2_less_than l.length ≤ j := by
          rcases Nat.lt_or_ge j (2 ^ (ceil_lg l.length - 1)) with hq | hq
          · exact absurd ((land_mask_eq_zero_iff hmask).mpr hq) hb
          · rw [hpowlp] at hq
            exact hq
        have hdir := get_directions_right l.length j h2 hb
        rw [hpowlp] at hdir
        rw [hdir] at hpl hacc
        have hpfne : pf ≠ [] := by
          intro hc
          rw [hc] at hpl
          simp at hpl
        obtain ⟨pf1, s, hpf⟩ : ∃ pf1 s, pf = pf1 ++ [s] :=
          ⟨pf.dropLast, pf.getLast hpfne, (List.dropLast_append_getLast hpfne).symm⟩
        subst hpf
        have hlenp : pf1.length =
            (get_directions (l.length - largest_power_of_2_less_than l.length)
              (j - largest_power_of_2_less_than l.length)).length := by
          rw [List.length_append] at hpl
          simp only [List.length_cons, List.length_singleton, List.length_nil] at hpl
          omega
        rw [List.reverse_cons,
          verify_fold_append H pf1 _ _ _ _ (by rw [List.length_reverse]; omega),
          verify_fold_single] at hacc
        rw [if_pos rfl] at hacc
        have hf1len : (verify_fold H e pf1
            (get_directions (l.length - largest_power_of_2_less_than l.length)
              (j - largest_power_of_2_less_than l.length)).reverse).length = dl := by
          by_cases hp1e : pf1 = []
          · rw [hp1e]
            exact he
          · exact verify_fold_length H dl hH pf1 _ e hp1e (by rw [List.length_reverse]; omega)
        obtain ⟨hsl, hfr⟩ :=
          List.append_inj' (hinj hacc) (by omega)
        have hjdr : j - largest_power_of_2_less_than l.length <
            (l.drop (largest_power_of_2_less_than l.length)).length := by omega
        obtain ⟨he1, hp1⟩ := ih (n - 1) (by omega)
          (l.drop (largest_power_of_2_less_than l.length)) e
          (j - largest_power_of_2_less_than l.length) pf1 (by omega)
          (fun y hy => hel y (List.drop_subset _ _ hy)) he hjdr
          (by rw [hdrlen]; exact hlenp)
          (by rw [hdrlen]; exact hfr)
        constructor
        · rw [he1]
          have hee : largest_power_of_2_less_than l.length +
              (j - largest_power_of_2_less_than l.length) = j := by omega
          simp only [List.get_eq_getElem, List.getElem_drop, hee]
        · rw [Node.proveLeaf, hsz, if_neg (by omega), hp1, hsl]

-- ## Remaining definitions: incremental builds, the historical accumulator,
-- and concrete hash functions for witnesses

/-- Build a tree by starting empty and calling `add` once per element. -/

theorem pyIndex_nat (len i : Nat) (h : i < len) : pyIndex len (i : Int) = some i := by
  unfold pyIndex
  rw [if_neg (show ¬ ((i : Int) < 0) by omega)]
  rw [if_pos (show (0 : Int) ≤ (i : Int) ∧ (i : Int) < (len : Int) by omega)]
  simp

theorem pyIndex_ge (len : Nat) (i : Int) (h : (len : Int) ≤ i) :
    pyIndex len i = none := by
  unfold pyIndex
  rw [if_neg (show ¬ (i < 0) by omega)]
  rw [if_neg (show ¬ ((0 : Int) ≤ i ∧ i < (len : Int)) by omega)]

theorem pyIndex_lt_neg (len : Nat) (i : Int) (h : i < -(len : Int)) :
    pyIndex len i = none := by
  unfold pyIndex
  rw [if_pos (show i < 0 by omega)]
  rw [if_neg (show ¬ ((0 : Int) ≤ (len : Int) + i ∧ (len : Int) + i < (len : Int)) by omega)]

theorem pyIndex_neg (len : Nat) (i : Int) (h1 : -(len : Int) ≤ i) (h2 : i < 0) :
    pyIndex len i = pyIndex len ((len : Int) + i) := by
  unfold pyIndex
  rw [if_pos h2]
  rw [if_neg (show ¬ ((len : Int) + i < 0) by omega)]

theorem get_ofElements (H : BS → BS) (l : List BS) (i : Nat) (hi : i < l.length) :
    (MerkleTree.ofElements H l).get (i : Int) = some (l.get ⟨i, hi⟩) := by
  unfold MerkleTree.get
  rw [size_ofElements, pyIndex_nat l.length i hi]
  show (MerkleTree.ofElements H l).leavesVals.get? i = some (l.get ⟨i, hi⟩)
  rw [leavesVals_ofElements]
  exact List.get?_eq_get hi

theorem prove_leaf_ofElements (H : BS → BS) (l : List BS) (i : Nat) (hi : i < l.length) :
    (MerkleTree.ofElements H l).prove_leaf (i : Int) =
      some ((make_tree H l).proveLeaf i) := by
  have hne : l ≠ [] := by
    intro hc
    rw [hc] at hi
    simp at hi
  unfold MerkleTree.prove_leaf
  rw [size_ofElements, pyIndex_nat l.length i hi, root_node_ofElements H l hne]
  rfl

-- ## The historical accumulator records exactly the constructor roots

theorem accFromList_sound (H : BS → BS) (els : List BS) :
    ∀ a : FastAccumulator, accFromList H els = some a →
      a.tree = MerkleTree.ofElements H els ∧
      a.R = (List.range (els.length + 1)).map
        (fun m => (MerkleTree.ofElements H (els.take m)).root) := by
  induction els using List.reverseRecOn with
  | nil =>
    intro a ha
    have ha2 : a = FastAccumulator.init := (Option.some_inj.mp ha).symm
    subst ha2
    constructor
    · rfl
    · rfl
  | append_singleton l x ih =>
    intro a ha
    rw [accFromList, List.foldlM_append] at ha
    rcases Option.bind_eq_some.mp ha with ⟨a1, ha1, hstep⟩
    obtain ⟨iht, ihr⟩ := ih a1 ha1
    have hstep2 : a1.add H x = some a := by
      have hs : List.foldlM (FastAccumulator.add H) a1 [x] = a1.add H x := by
        show a1.add H x >>= (fun b => pure b) = a1.add H x
        exact bind_pure _
      rw [← hs]
      exact hstep
    rw [FastAccumulator.add] at hstep2
    rcases Option.map_eq_some'.mp hstep2 with ⟨t2, ht2, ha2⟩
    rw [iht] at ht2
    have ht2e := MerkleTree.add_sound H l x t2 ht2
    subst ha2
    constructor
    · exact ht2e
    · simp only [List.length_append, List.length_singleton]
      have hrange : List.range (l.length + 1 + 1) =
          List.range (l.length + 1) ++ [l.length + 1] := List.range_succ _
      rw [hrange, List.map_append]
      have h1 : List.map (fun m => (MerkleTree.ofElements H ((l ++ [x]).take m)).root)
          (List.range (l.length + 1)) = a1.R := by
        rw [ihr]
        apply List.map_congr_left
        intro m hm
        have hmle : m ≤ l.length := by
          have := List.mem_range.mp hm
          omega
        rw [List.take_append_of_le_length hmle]
      have htk : (l ++ [x]).take (l.length + 1) = l ++ [x] := by
        have hlen : (l ++ [x]).length = l.length + 1 := by simp
        rw [← hlen]
        exact List.take_length _
      have h2 : List.map (fun m => (MerkleTree.ofElements H ((l ++ [x]).take m)).root)
          [l.length + 1] = [t2.root] := by
        simp only [List.map_cons, List.map_nil, htk]
        rw [ht2e]
      rw [h1, h2]

-- ## Rejection lemma: a verifying pair is the honest pair

theorem verify_false_of_reject (H : BS → BS) (dl : Nat) (hinj : Function.Injective H)
    (hH : ∀ a, (H a).length = dl) (l : List BS) (hel : ∀ y ∈ l, y.length = dl)
    (e : BS) (he : e.length = dl) (j : Nat) (hj : j < l.length) (pf : List BS)
    (hrej : ¬ (e = l.get ⟨j, hj⟩ ∧ pf = (make_tree H l).proveLeaf j)) :
    merkle_proof_verify H (MerkleTree.ofElements H l).root l.length e j pf = some false := by
  have hne : l ≠ [] := by
    intro hc
    rw [hc] at hj
    simp at hj
  rw [root_ofElements H l hne]
  simp only [merkle_proof_verify]
  rw [if_pos ⟨by omega, hj⟩]
  by_cases hlen : pf.length ≠ (get_directions l.length j).length
  · rw [if_pos hlen]
  · push_neg at hlen
    rw [if_neg (not_not_intro hlen)]
    have hff : (verify_fold H e pf (get_directions l.length j).reverse ==
        (make_tree H l).value) = false := by
      rw [beq_eq_false_iff_ne]
      intro hacc
      exact hrej (sound_fold H dl hinj hH l.length l e j pf le_rfl hel he hj hlen hacc)
    rw [hff]

theorem encBS_inj : ∀ a b : BS, encBS a = encBS b → a = b := by
  intro a
  induction a with
  | nil =>
    intro b h
    cases b with
    | nil => rfl
    | cons y ys => simp [encBS] at h
  | cons x xs ih =>
    intro b h
    cases b with
    | nil => simp [encBS] at h
    | cons y ys =>
      simp only [encBS, Nat.add_right_cancel_iff] at h
      obtain ⟨h1, h2⟩ := Nat.pair_eq_pair.mp h
      rw [h1, ih ys h2]

theorem Hpair_inj : Function.Injective Hpair := by
  intro a b h
  simp only [Hpair, List.cons.injEq, and_true] at h
  exact encBS_inj a b h

-- ## The claims

/-- C1: completeness of proofs.  For every tree built over a non-empty
element sequence and every index `0 ≤ i < n`,
`merkle_proof_verify(tree.root, n, tree.get(i), i, tree.prove_leaf(i))`
returns true.  (Trees produced by successful `add`/`set` calls coincide
with constructor-built trees by `MerkleTree.add_sound` and
`MerkleTree.set_sound`, so quantifying over `MerkleTree.ofElements`
covers them.) -/

theorem proof_completeness (H : BS → BS) (l : List BS) (i : Nat) (e : BS) (pf : List BS)
    (hi : i < l.length)
    (hget : (MerkleTree.ofElements H l).get (i : Int) = some e)
    (hpf : (MerkleTree.ofElements H l).prove_leaf (i : Int) = some pf) :
    merkle_proof_verify H (MerkleTree.ofElements H l).root l.length e i pf = some true := by
  have hne : l ≠ [] := by
    intro hc
    rw [hc] at hi
    simp at hi
  rw [get_ofElements H l i hi] at hget
  rw [prove_leaf_ofElements H l i hi] at hpf
  have he : e = l.get ⟨i, hi⟩ := (Option.some_inj.mp hget).symm
  have hp : pf = (make_tree H l).proveLeaf i := (Option.some_inj.mp hpf).symm
  subst he
  subst hp
  obtain ⟨hlen, hfold⟩ := prove_fold_root H l.length l i le_rfl hi
  rw [root_ofElements H l hne]
  simp only [merkle_proof_verify]
  rw [if_pos ⟨by omega, hi⟩, if_neg (not_not_intro hlen)]
  rw [hfold]
  simp

/-- Witness for C1 at a concrete three-leaf tree. -/

theorem proof_completeness_witness :
    (1 < 3 ∧
     (MerkleTree.ofElements Hcons [[1],[2],[3]]).get (1 : Int) = some [2] ∧
     (MerkleTree.ofElements Hcons [[1],[2],[3]]).prove_leaf (1 : Int) = some [[1],[3]]) ∧
    merkle_proof_verify Hcons (MerkleTree.ofElements Hcons [[1],[2],[3]]).root 3 [2] 1
      [[1],[3]] = some true :=
  ⟨⟨by decide, by decide, by decide⟩,
    proof_completeness Hcons [[1],[2],[3]] 1 [2] [[1],[3]] (by decide) (by decide) (by decide)⟩

/-- C4 counterexample: `get_directions` does not always have length
`ceil(log2(size))`: at size 3, index 2 the path has length 1 while
`ceil_lg 3 = 2`. -/

theorem directions_length_cex :
    (get_directions 3 2).length = 1 ∧ ceil_lg 3 = 2 ∧
    ¬ ((get_directions 3 2).length = ceil_lg 3) := by decide

/-- C4 amended: for `size > 1` and `0 ≤ index < size` the direction path
has length at most `ceil_lg size`, with equality attained at index 0;
for `size = 1` it is empty. -/

theorem directions_length_amended (size index : Nat) (h1 : 1 < size) (h2 : index < size) :
    (get_directions size index).length ≤ ceil_lg size ∧
    (get_directions size 0).length = ceil_lg size ∧
    get_directions 1 0 = [] :=
  ⟨get_directions_length_le size size index le_rfl h2,
   get_directions_length_zero size size le_rfl (by omega),
   get_directions_small 1 0 le_rfl⟩

/-- Witness for the amended C4 at size 3, index 2. -/

theorem directions_length_amended_witness :
    (1 < 3 ∧ 2 < 3) ∧
    ((get_directions 3 2).length ≤ ceil_lg 3 ∧
     (get_directions 3 0).length = ceil_lg 3 ∧
     get_directions 1 0 = []) :=
  ⟨⟨by decide, by decide⟩, directions_length_amended 3 2 (by decide) (by decide)⟩

/-- C5 counterexample: `get(-1)` does not fail — Python's negative list
indexing returns the last leaf instead of raising. -/

theorem negative_index_cex :
    (MerkleTree.ofElements Hcons [[1],[2]]).get (-1 : Int) = some [2] := by decide

/-- C5 amended: `get` and `prove_leaf` fail for `index ≥ len` and for
`index < -len`; for `-len ≤ index < 0` they behave as at `len + index`
(Python's negative indexing) instead of failing; `set` fails for every
index outside `[0, len]` with the tree untouched. -/

theorem index_errors_amended (H : BS → BS) (l : List BS) (x : BS) (i1 i2 i3 i4 : Int)
    (h1 : (l.length : Int) ≤ i1)
    (h2 : i2 < -(l.length : Int))
    (h3a : -(l.length : Int) ≤ i3) (h3b : i3 < 0)
    (h4 : i4 < 0 ∨ (l.length : Int) < i4) :
    ((MerkleTree.ofElements H l).get i1 = none ∧
      (MerkleTree.ofElements H l).prove_leaf i1 = none) ∧
    ((MerkleTree.ofElements H l).get i2 = none ∧
      (MerkleTree.ofElements H l).prove_leaf i2 = none) ∧
    ((MerkleTree.ofElements H l).get i3 =
        (MerkleTree.ofElements H l).get ((l.length : Int) + i3) ∧
      (MerkleTree.ofElements H l).prove_leaf i3 =
        (MerkleTree.ofElements H l).prove_leaf ((l.length : Int) + i3)) ∧
    (MerkleTree.ofElements H l).set H i4 x = none := by
  have hs := size_ofElements H l
  refine ⟨⟨?_, ?_⟩, ⟨?_, ?_⟩, ⟨?_, ?_⟩, ?_⟩
  · unfold MerkleTree.get
    rw [hs, pyIndex_ge l.length i1 h1]
    rfl
  · unfold MerkleTree.prove_leaf
    rw [hs, pyIndex_ge l.length i1 h1]
    rfl
  · unfold MerkleTree.get
    rw [hs, pyIndex_lt_neg l.length i2 h2]
    rfl
  · unfold MerkleTree.prove_leaf
    rw [hs, pyIndex_lt_neg l.length i2 h2]
    rfl
  · unfold MerkleTree.get
    rw [hs, pyIndex_neg l.length i3 h3a h3b]
  · unfold MerkleTree.prove_leaf
    rw [hs, pyIndex_neg l.length i3 h3a h3b]
  · unfold MerkleTree.set
    rw [hs, if_neg (by omega)]

/-- Witness for the amended C5 on a concrete two-leaf tree. -/

theorem index_errors_amended_witness :
    ((2 : Int) ≤ 5 ∧ (-9 : Int) < -2 ∧ (-2 : Int) ≤ -1 ∧ (-1 : Int) < 0 ∧
      ((3 : Int) < 0 ∨ (2 : Int) < 3)) ∧
    (((MerkleTree.ofElements Hcons [[1],[2]]).get 5 = none ∧
        (MerkleTree.ofElements Hcons [[1],[2]]).prove_leaf 5 = none) ∧
      ((MerkleTree.ofElements Hcons [[1],[2]]).get (-9) = none ∧
        (MerkleTree.ofElements Hcons [[1],[2]]).prove_leaf (-9) = none) ∧
      ((MerkleTree.ofElements Hcons [[1],[2]]).get (-1) =
          (MerkleTree.ofElements Hcons [[1],[2]]).get ((2 : Int) + -1) ∧
        (MerkleTree.ofElements Hcons [[1],[2]]).prove_leaf (-1) =
          (MerkleTree.ofElements Hcons [[1],[2]]).prove_leaf ((2 : Int) + -1)) ∧
      (MerkleTree.ofElements Hcons [[1],[2]]).set Hcons 3 [7] = none) :=
  ⟨⟨by decide, by decide, by decide, by decide, Or.inr (by decide)⟩,
    (by
      exact index_errors_amended Hcons [[1],[2]] [7] 5 (-9) (-1) 3 (by decide) (by decide)
        (by decide) (by decide) (Or.inr (by decide)))⟩

/-- C6: a proof whose length differs from the expected path length makes
`merkle_proof_verify` return false (`some false`: inside the asserted
domain `size ≥ 1`, `0 ≤ index < size` the function cannot raise). -/

theorem verify_length_mismatch (H : BS → BS) (root e : BS) (size index : Nat)
    (proof : List BS) (h1 : 1 ≤ size) (h2 : index < size)
    (h3 : proof.length ≠ (get_directions size index).length) :
    merkle_proof_verify H root size e index proof = some false := by
  simp only [merkle_proof_verify]
  rw [if_pos ⟨h1, h2⟩, if_pos h3]

/-- Witness for C6: an empty proof against a two-leaf tree. -/

theorem verify_length_mismatch_witness :
    (1 ≤ 2 ∧ 0 < 2 ∧ ([] : List BS).length ≠ (get_directions 2 0).length) ∧
    merkle_proof_verify Hcons [9] 2 [1] 0 [] = some false :=
  ⟨⟨by decide, by decide, by decide⟩,
    verify_length_mismatch Hcons [9] [1] 2 0 [] (by decide) (by decide) (by decide)⟩

/-- C7: `copy` rebuilds, from the leaf values alone, a tree equal to the
original (in particular with the same root).  Because the rebuild uses
only the values — fresh nodes, no sharing — subsequent mutation of the
copy cannot affect the original, which the purely functional model
reflects by `copy` being value-equal to the original. -/

theorem copy_root_preserved (H : BS → BS) (l : List BS) :
    ((MerkleTree.ofElements H l).copy H).root = (MerkleTree.ofElements H l).root ∧
    (MerkleTree.ofElements H l).copy H = MerkleTree.ofElements H l := by
  have hc : (MerkleTree.ofElements H l).copy H = MerkleTree.ofElements H l := by
    unfold MerkleTree.copy
    rw [leavesVals_ofElements]
  exact ⟨by rw [hc], hc⟩

/-- C10: the frame property of `set`: the leaf count is unchanged, leaf
`i` now holds `x`, and every other leaf is unchanged. -/

theorem set_frame_property (H : BS → BS) (l : List BS) (i j : Nat) (x : BS)
    (t2 : MerkleTree) (hi : i < l.length)
    (hset : (MerkleTree.ofElements H l).set H (i : Int) x = some t2)
    (hj : j < l.length) (hne : j ≠ i) :
    t2.size = l.length ∧
    t2.get (i : Int) = some x ∧
    t2.get (j : Int) = (MerkleTree.ofElements H l).get (j : Int) := by
  rw [MerkleTree.set_sound H l i x hi] at hset
  have ht2 : t2 = MerkleTree.ofElements H (l.set i x) := (Option.some_inj.mp hset).symm
  subst ht2
  have hlen : (l.set i x).length = l.length := List.length_set l i x
  refine ⟨?_, ?_, ?_⟩
  · rw [size_ofElements, hlen]
  · rw [get_ofElements H (l.set i x) i (by omega)]
    congr 1
    exact List.get_set_eq (by omega)
  · rw [get_ofElements H (l.set i x) j (by omega), get_ofElements H l j hj]
    congr 1
    have hq := List.get?_set_ne x l (show i ≠ j from fun hc => hne hc.symm)
    rw [List.get?_eq_get (show j < (l.set i x).length by omega),
      List.get?_eq_get hj] at hq
    exact Option.some_inj.mp hq

/-- Witness for C10 on a concrete three-leaf tree. -/

theorem set_frame_property_witness :
    (1 < 3 ∧
     (MerkleTree.ofElements Hcons [[1],[2],[3]]).set Hcons (1 : Int) [9] =
       some (MerkleTree.ofElements Hcons [[1],[9],[3]]) ∧
     2 < 3 ∧ (2 : Nat) ≠ 1) ∧
    ((MerkleTree.ofElements Hcons [[1],[9],[3]]).size = 3 ∧
     (MerkleTree.ofElements Hcons [[1],[9],[3]]).get (1 : Int) = some [9] ∧
     (MerkleTree.ofElements Hcons [[1],[9],[3]]).get (2 : Int) =
       (MerkleTree.ofElements Hcons [[1],[2],[3]]).get (2 : Int)) :=
  ⟨⟨by decide, by decide, by decide, by decide⟩,
    (by
      exact set_frame_property Hcons [[1],[2],[3]] 1 2 [9]
        (MerkleTree.ofElements Hcons [[1],[9],[3]]) (by decide) (by decide) (by decide)
        (by decide))⟩

/-- C2 counterexample: with the injective (hence collision-free) hash
`Hpair`, the honest proof for leaf 0 of the tree over two *equal*
elements also verifies at the wrong index 1 — so supplying a different
index does not always make `merkle_proof_verify` return false, even
though no two distinct byte strings share an `Hpair`-digest. -/

theorem wrong_index_soundness_cex :
    Function.Injective Hpair ∧
    (MerkleTree.ofElements Hpair [[1], [1]]).prove_leaf (0 : Int) = some [[1]] ∧
    merkle_proof_verify Hpair (MerkleTree.ofElements Hpair [[1], [1]]).root 2 [1] 1 [[1]]
      = some true :=
  ⟨Hpair_inj, by decide, by decide⟩

/-- C2 amended: over a collision-free hash with fixed digest length,
altering any single proof entry or the target element makes
`merkle_proof_verify` return false; supplying a different index `j ≠ i`
makes it return false whenever the element at `j` differs from the
element at `i` (with equal elements the statement being verified is
itself true, as the counterexample shows). -/

theorem proof_soundness_amended (H : BS → BS) (dl : Nat) (l : List BS)
    (hinj : Function.Injective H) (hH : ∀ a, (H a).length = dl)
    (hel : ∀ y ∈ l, y.length = dl)
    (i j k : Nat) (y e2 : BS) (pf : List BS)
    (hi : i < l.length) (hj : j < l.length) (hji : j ≠ i)
    (hpf : (MerkleTree.ofElements H l).prove_leaf (i : Int) = some pf)
    (hk : k < pf.length) (hy : y ≠ pf.get ⟨k, hk⟩)
    (he2 : e2 ≠ l.get ⟨i, hi⟩) (he2l : e2.length = dl)
    (hlj : l.get ⟨j, hj⟩ ≠ l.get ⟨i, hi⟩) :
    merkle_proof_verify H (MerkleTree.ofElements H l).root l.length
        (l.get ⟨i, hi⟩) i (pf.set k y) = some false ∧
    merkle_proof_verify H (MerkleTree.ofElements H l).root l.length e2 i pf = some false ∧
    merkle_proof_verify H (MerkleTree.ofElements H l).root l.length
        (l.get ⟨i, hi⟩) j pf = some false := by
  rw [prove_leaf_ofElements H l i hi] at hpf
  have hpfe : pf = (make_tree H l).proveLeaf i := (Option.some_inj.mp hpf).symm
  have hmem : l.get ⟨i, hi⟩ ∈ l := List.get_mem l i hi
  refine ⟨?_, ?_, ?_⟩
  · apply verify_false_of_reject H dl hinj hH l hel _ (hel _ hmem) i hi
    rintro ⟨-, h2⟩
    have hsame : pf.set k y = pf := by
      rw [h2, ← hpfe]
    have hky : (pf.set k y).get? k = some y := List.get?_set_eq_of_lt y hk
    rw [hsame, List.get?_eq_get hk] at hky
    exact hy (Option.some_inj.mp hky).symm
  · apply verify_false_of_reject H dl hinj hH l hel _ he2l i hi
    rintro ⟨h1, -⟩
    exact he2 h1
  · apply verify_false_of_reject H dl hinj hH l hel _ (hel _ hmem) j hj
    rintro ⟨h1, -⟩
    exact hlj h1.symm

/-- Witness for the amended C2 on a two-leaf tree over `Hpair`. -/

theorem proof_soundness_amended_witness :
    (0 < 2 ∧ 1 < 2 ∧ (1 : Nat) ≠ 0 ∧
     (MerkleTree.ofElements Hpair [[1],[2]]).prove_leaf (0 : Int) = some [[2]] ∧
     0 < 1 ∧ ([5] : BS) ≠ [2] ∧ ([7] : BS) ≠ [1] ∧ ([2] : BS) ≠ [1]) ∧
    (merkle_proof_verify Hpair (MerkleTree.ofElements Hpair [[1],[2]]).root 2
        [1] 0 ([[2]].set 0 [5]) = some false ∧
     merkle_proof_verify Hpair (MerkleTree.ofElements Hpair [[1],[2]]).root 2
        [7] 0 [[2]] = some false ∧
     merkle_proof_verify Hpair (MerkleTree.ofElements Hpair [[1],[2]]).root 2
        [1] 1 [[2]] = some false) :=
  ⟨⟨by decide, by decide, by decide, by decide, by decide, by decide, by decide, by decide⟩,
    by
      exact proof_soundness_amended Hpair 1 [[1],[2]] Hpair_inj (fun a => rfl) (by decide)
        0 1 0 [5] [7] [[2]] (by decide) (by decide) (by decide) (by decide) (by decide)
        (by decide) (by decide) (by decide) (by decide)⟩

set_option maxHeartbeats 2000000 in
/-- C3: the left-complete shape invariant is *not* preserved by every
`add`: on a tree with 11 leaves the descent loop of `add` halves its
tracked left-subtree size from 8 to 4, although the 3-leaf right-spine
subtree has a left subtree of 2 leaves, drives `cur_root_size` to -1 and
then walks into the missing right child of a leaf — the call crashes
(`none` in the model) instead of producing a 12-leaf tree. -/
theorem add_shape_invariant_bug :
    (MerkleTree.ofElements Hcons els11).add Hcons [11] = none ∧
    (MerkleTree.ofElements Hcons els11).size = 11 :=
  ⟨by decide, by decide⟩

/-- C8: the historical accumulator records, for every reached size `m`,
exactly the root an independently built tree over the first `m` elements
would produce; `R[0] = NIL`; and a further append leaves every recorded
entry unchanged.  (The accumulator layer is modelled from the spec —
its source is not under `src/`.) -/

theorem accumulator_historical_roots (H : BS → BS) (els : List BS) (a : FastAccumulator)
    (m : Nat) (x : BS) (a2 : FastAccumulator)
    (hacc : accFromList H els = some a) (hm : m ≤ els.length)
    (hstep : a.add H x = some a2) :
    a.R.length = els.length + 1 ∧
    a.R.get? 0 = some NIL ∧
    a.R.get? m = some ((MerkleTree.ofElements H (els.take m)).root) ∧
    a2.R.take a.R.length = a.R := by
  obtain ⟨htree, hR⟩ := accFromList_sound H els a hacc
  have hlen : a.R.length = els.length + 1 := by
    rw [hR]
    simp
  refine ⟨hlen, ?_, ?_, ?_⟩
  · rw [hR, List.get?_map, List.get?_range (by omega)]
    rfl
  · rw [hR, List.get?_map, List.get?_range (by omega)]
    rfl
  · rw [FastAccumulator.add] at hstep
    rcases Option.map_eq_some'.mp hstep with ⟨t2, _, ha2⟩
    rw [← ha2]
    exact List.take_left _ _

/-- Concrete accumulator state after the appends `[1], [2], [3]`. -/

theorem accumulator_historical_roots_witness :
    (accFromList Hcons [[1],[2],[3]] = some accW3 ∧ 2 ≤ 3 ∧
     accW3.add Hcons [4] = some accW4) ∧
    (accW3.R.length = 3 + 1 ∧
     accW3.R.get? 0 = some NIL ∧
     accW3.R.get? 2 = some ((MerkleTree.ofElements Hcons ([[1],[2],[3]].take 2)).root) ∧
     accW4.R.take accW3.R.length = accW3.R) :=
  ⟨⟨by decide, by decide, by decide⟩,
    by
      exact accumulator_historical_roots Hcons [[1],[2],[3]] accW3 2 [4] accW4
        (by decide) (by decide) (by decide)⟩

set_option maxHeartbeats 4000000 in
/-- C9: batch build does *not* always equal incremental append: over the
twelve elements `els12` the constructor succeeds (12 leaves) but the
incremental build crashes while adding the 12th element (the same
descent-loop defect as in the 11-leaf `add`). -/
theorem incremental_add_bug :
    addAll Hcons els12 = none ∧
    (MerkleTree.ofElements Hcons els12).size = 12 := by
  constructor
  · have h11 : List.foldlM (MerkleTree.add Hcons) (⟨none, none⟩ : MerkleTree) els11 =
        some (MerkleTree.ofElements Hcons els11) := by decide
    have hfail : (MerkleTree.ofElements Hcons els11).add Hcons [11] = none := by decide
    show (els11 ++ [[11]]).foldlM (MerkleTree.add Hcons) ⟨none, none⟩ = none
    rw [List.foldlM_append, h11]
    show ((MerkleTree.ofElements Hcons els11).add Hcons [11] >>= fun b =>
      List.foldlM (MerkleTree.add Hcons) b []) = none
    rw [hfail]
    rfl
  · decide
